import Mathlib

/-!
# go-playground: chunk boundaries and channel combinators

A shallow embedding of `chunk/main.go` (pure functions over `int` and slices)
and of the channel combinators `or`, `orDone` and `fanIn` under
`asynchronous/` (goroutines as step relations over an explicit state), with
the properties of their specification proved or refuted on the embedding.
All definitions come first, the theorems follow.
-/

/-! ## chunk/main.go : chunk boundaries and slice chunking -/

namespace Chunk

/-- Largest value of Go's `int` on a 64-bit target. -/
def maxInt : Int := 9223372036854775807

/-- Go's `int` arithmetic wraps around in two's complement (64-bit target):
the mathematical result is reduced into the range `-2^63 .. 2^63-1`. -/
def wrapInt (x : Int) : Int :=
  (x + 9223372036854775808) % 18446744073709551616 - 9223372036854775808

/-- Record `Indices` of chunk/main.go: `type Indices struct { Start, End int }`. -/
structure Indices where
  Start : Int
  End : Int
  deriving DecidableEq, Repr

/-- The `for i := 0; i < totalLength; i += chunkingSize` loop of
`CalculateChunkBoundaries`; `fuel` bounds the number of iterations and the
loop is out of fuel (`none`) when it has not left after `fuel` tests. -/
def boundariesLoop : Nat → Int → Int → Int → List Indices → Option (List Indices)
  | 0, _, _, _, _ => none
  | fuel + 1, totalLength, chunkingSize, i, result =>
    if i < totalLength then
      if wrapInt (i + chunkingSize) ≤ totalLength then
        boundariesLoop fuel totalLength chunkingSize (wrapInt (i + chunkingSize))
          (result ++ [⟨i, wrapInt (i + chunkingSize)⟩])
      else
        boundariesLoop fuel totalLength chunkingSize (wrapInt (i + chunkingSize))
          (result ++ [⟨i, totalLength⟩])
    else some result

/-- Function `CalculateChunkBoundaries(totalLength, chunkingSize int) []Indices`. -/
def CalculateChunkBoundaries (fuel : Nat) (totalLength chunkingSize : Int) :
    Option (List Indices) :=
  if totalLength ≤ 0 then some []
  else if chunkingSize ≤ 0 then some [⟨0, totalLength⟩]
  else if totalLength < chunkingSize then some [⟨0, totalLength⟩]
  else boundariesLoop fuel totalLength chunkingSize 0 []

/-- A Go slice: its visible elements and the rest of its backing array up to
the capacity. -/
structure Slice (T : Type) where
  elems : List T
  spare : List T
  deriving DecidableEq, Repr

/-- Built-in `len(s)`. -/
def Slice.len {T : Type} (s : Slice T) : Int := s.elems.length

/-- Built-in `cap(s)`. -/
def Slice.cap {T : Type} (s : Slice T) : Int := s.elems.length + s.spare.length

/-- Slice expression `s[lo:hi]`: it panics (`none`) unless
`0 ≤ lo ≤ hi ≤ cap(s)`, and otherwise shares the backing array of `s`. -/
def Slice.slice {T : Type} (s : Slice T) (lo hi : Int) : Option (Slice T) :=
  if 0 ≤ lo ∧ lo ≤ hi ∧ hi ≤ s.cap then
    some ⟨((s.elems ++ s.spare).drop lo.toNat).take (hi - lo).toNat,
          (s.elems ++ s.spare).drop hi.toNat⟩
  else none

/-- The `for i := 0; i < len(slice); i += size` loop of `AllocationBasedChunk`. -/
def allocLoop {T : Type} : Nat → Slice T → Int → Int → List (Slice T) →
    Option (List (Slice T))
  | 0, _, _, _, _ => none
  | fuel + 1, slice, size, i, chunks =>
    if i < slice.len then
      match slice.slice i
          (if wrapInt (i + size) > slice.len then slice.len else wrapInt (i + size)) with
      | none => none
      | some c => allocLoop fuel slice size (wrapInt (i + size)) (chunks ++ [c])
    else some chunks

/-- Function `AllocationBasedChunk(slice S, size int) [][]T`. -/
def AllocationBasedChunk {T : Type} (fuel : Nat) (slice : Slice T) (size : Int) :
    Option (List (Slice T)) :=
  if slice.len = 0 then some [] else allocLoop fuel slice size 0 []

/-- Function `ChunkWithIndices(slice []T, indices []Indices) [][]T`: one slice
expression per entry, in order; it panics at the first entry out of range. -/
def ChunkWithIndices {T : Type} (slice : Slice T) : List Indices → Option (List (Slice T))
  | [] => some []
  | idx :: rest =>
    match slice.slice idx.Start idx.End with
    | none => none
    | some c =>
      match ChunkWithIndices slice rest with
      | none => none
      | some cs => some (c :: cs)

/-- The benchmark body of `main`: `ChunkWithIndices(data,
CalculateChunkBoundaries(len(data), chunkSize))`. -/
def chunkByBoundaries {T : Type} (fuel : Nat) (slice : Slice T) (size : Int) :
    Option (List (Slice T)) :=
  match CalculateChunkBoundaries fuel slice.len size with
  | none => none
  | some indices => ChunkWithIndices slice indices

/-- The ranges `[i + j*c, min (i + (j+1)*c) total)` for `j < n`. -/
def tilesFrom (total c i : Int) : Nat → List Indices
  | 0 => []
  | n + 1 => ⟨i, min (i + c) total⟩ :: tilesFrom total c (i + c) n

end Chunk

/-! ## asynchronous/or_channel/main.go : recursive `or` over completion signals -/

namespace OrChannel

/-- A value of type `<-chan any`: `none` is the nil channel, `some id` refers
to the channel created by the `id`-th `make`. -/
abbrev Chan := Option Nat

/-- Control point of the goroutine spawned by `or` (lines 20-38). -/
inductive Pc where
  /-- spawned, body not yet entered -/
  | start
  /-- blocked in the `select` of `case 2`, channel operands evaluated -/
  | wait2 (a b : Chan)
  /-- blocked in the `select` of `default`, channel operands evaluated; `r` is
  the value of the recursive call `or(append(channels[3:], orDone)...)` -/
  | wait4 (a b c r : Chan)
  /-- a case was chosen, the deferred `close(orDone)` ran, the goroutine returned -/
  | exited
  deriving DecidableEq, Repr

/-- A goroutine spawned by `or` with the variables its closure captured. -/
structure Goroutine where
  channels : List Chan
  orDone : Nat
  pc : Pc
  deriving DecidableEq, Repr

/-- Program state: for every channel made so far whether it is closed, and
the goroutines spawned so far. -/
structure State where
  closed : List Bool
  gs : List Goroutine
  deriving DecidableEq, Repr

/-- A receive `<-c` can proceed: completion signals carry no value, so this is
when `c` is closed; a receive from the nil channel never proceeds. -/
def recvReady (s : State) : Chan → Bool
  | none => false
  | some id => s.closed.getD id false

/-- Function `or(channels ...<-chan any) <-chan any`, lines 10-40: the two base
cases return without any effect; otherwise `orDone` is made, the goroutine is
spawned and `orDone` is returned. -/
def or (channels : List Chan) (s : State) : Chan × State :=
  match channels with
  | [] => (none, s)
  | [c] => (c, s)
  | _ :: _ :: _ =>
    (some s.closed.length,
      ⟨s.closed ++ [false], s.gs ++ [⟨channels, s.closed.length, Pc.start⟩]⟩)

/-- Goroutine `g` moves to control point `pc`. -/
def setPc (s : State) (g : Nat) (gr : Goroutine) (pc : Pc) : State :=
  { s with gs := s.gs.set g { gr with pc := pc } }

/-- Statement `close(ch)`: it panics (`none`) on a channel that is already closed. -/
def closeChan (s : State) (id : Nat) : Option State :=
  if s.closed.getD id false then none else some { s with closed := s.closed.set id true }

/-- One step of goroutine `g`. From `start` it enters the `switch`: with two
channels it blocks in the two-way `select`; otherwise it evaluates the operands
`channels[0]`, `channels[1]`, `channels[2]` and the recursive call, and blocks
in the four-way `select` (an index out of range panics). A blocked goroutine
proceeds when one of its cases can, runs the deferred `close(orDone)` and
returns. -/
def stepGoroutine (s : State) (g : Nat) : Option State :=
  match s.gs[g]? with
  | none => none
  | some gr =>
    match gr.pc with
    | Pc.start =>
      match gr.channels with
      | [a, b] => some (setPc s g gr (Pc.wait2 a b))
      | a :: b :: c :: rest =>
        some (setPc (or (rest ++ [some gr.orDone]) s).2 g gr
          (Pc.wait4 a b c (or (rest ++ [some gr.orDone]) s).1))
      | _ => none
    | Pc.wait2 a b =>
      if recvReady s a || recvReady s b then
        closeChan (setPc s g gr Pc.exited) gr.orDone
      else none
    | Pc.wait4 a b c r =>
      if recvReady s a || recvReady s b || recvReady s c || recvReady s r then
        closeChan (setPc s g gr Pc.exited) gr.orDone
      else none
    | Pc.exited => none

/-- Transitions of the system: a constituent signal fires, or a goroutine steps. -/
inductive Action where
  /-- the environment closes the constituent channel `id` -/
  | fire (id : Nat)
  /-- goroutine `g` takes its next step -/
  | run (g : Nat)
  deriving DecidableEq, Repr

/-- One transition; `n` is the number of channels that existed before `or` was
called: only those belong to the environment. -/
def step (n : Nat) (a : Action) (s : State) : Option State :=
  match a with
  | Action.fire id => if id < n then some { s with closed := s.closed.set id true } else none
  | Action.run g => stepGoroutine s g

/-- Run a schedule, a list of transitions, from a state. -/
def exec (n : Nat) : List Action → State → Option State
  | [], s => some s
  | a :: rest, s =>
    match step n a s with
    | none => none
    | some s' => exec n rest s'

/-- No goroutine can step. -/
def quiescent (s : State) : Bool :=
  (List.range s.gs.length).all fun g => (stepGoroutine s g).isNone

/-- State in which `or` is called: the existing channels with their closed
flags, no goroutine of `or` yet. -/
def callState (closed : List Bool) : State := ⟨closed, []⟩

/-- The constituent channels whose firing time is the logical time `t`. -/
def due (times : List (Option Nat)) (t : Nat) : List Nat :=
  (List.range times.length).filter fun id => times.getD id none == some t

/-- The environment closes each of the channels `ids`. -/
def fireAll (ids : List Nat) (s : State) : State :=
  { s with closed := ids.foldl (fun cl id => cl.set id true) s.closed }

/-- Transitions in logical time. -/
inductive TAction where
  /-- goroutine `g` takes its next step, in no time -/
  | run (g : Nat)
  /-- the clock advances by one unit -/
  | tick
  deriving DecidableEq, Repr

/-- One transition in logical time: goroutine steps are instantaneous, and the
clock advances once no goroutine can step, firing the signals due at the new
time. -/
def tstep (times : List (Option Nat)) (a : TAction) (ts : Nat × State) : Option (Nat × State) :=
  match a with
  | TAction.run g =>
    match stepGoroutine ts.2 g with
    | none => none
    | some s' => some (ts.1, s')
  | TAction.tick =>
    if quiescent ts.2 then some (ts.1 + 1, fireAll (due times (ts.1 + 1)) ts.2) else none

/-- Run a schedule in logical time. -/
def texec (times : List (Option Nat)) : List TAction → Nat × State → Option (Nat × State)
  | [], ts => some ts
  | a :: rest, ts =>
    match tstep times a ts with
    | none => none
    | some ts' => texec times rest ts'

/-- Logical time 0: one open channel per entry of `times`, those due at time 0
fire, and `or(channels...)` has just been called. -/
def tinit (times : List (Option Nat)) (channels : List Chan) : Nat × State :=
  (0, fireAll (due times 0) (or channels (callState (List.replicate times.length false))).2)

/-- Number of goroutine steps in a timed schedule. -/
def countTRuns : List TAction → Nat
  | [] => 0
  | TAction.tick :: rest => countTRuns rest
  | TAction.run _ :: rest => countTRuns rest + 1

/-- The channel lists down the recursion: `chanAt n channels j` is the argument
of the `j`-th nested call, when the first channel made has index `n`. -/
def chanAt (n : Nat) (channels : List Chan) : Nat → List Chan
  | 0 => channels
  | j + 1 => (chanAt n channels j).drop 3 ++ [some (n + j)]

/-- Control point of a goroutine right after it entered its `select`, for
captured `channels` and `orDone = k`. -/
def expectedPc (k : Nat) (channels : List Chan) : Option Pc :=
  match channels with
  | [a, b] => some (Pc.wait2 a b)
  | [a, b, c] => some (Pc.wait4 a b c (some k))
  | a :: b :: c :: _ :: _ => some (Pc.wait4 a b c (some (k + 1)))
  | _ => none

/-- Progress of a goroutine: steps it has taken. -/
def stage : Pc → Nat
  | Pc.start => 0
  | Pc.wait2 _ _ => 1
  | Pc.wait4 _ _ _ _ => 1
  | Pc.exited => 2

/-- Total number of steps the goroutines have taken. -/
def stepsTaken (s : State) : Nat := (s.gs.map fun g => stage g.pc).sum

/-- The channel operands of the `select` a goroutine is blocked in. -/
def alts : Pc → List Chan
  | Pc.start => []
  | Pc.wait2 a b => [a, b]
  | Pc.wait4 a b c r => [a, b, c, r]
  | Pc.exited => []

/-- Invariant of the `j`-th goroutine `g` of a state reached from the call
`or(chs...)` made when `n` channels existed. -/
structure GInv (n : Nat) (chs : List Chan) (s : State) (j : Nat) (g : Goroutine) : Prop where
  orDone_eq : g.orDone = n + j
  channels_eq : g.channels = chanAt n chs j
  two_le : 2 ≤ g.channels.length
  start_last : g.pc = Pc.start → j + 1 = s.gs.length
  pc_ok : g.pc ≠ Pc.start → (expectedPc (n + j) g.channels = some g.pc ∨ g.pc = Pc.exited)
  succ_iff : g.pc ≠ Pc.start → (4 ≤ g.channels.length ↔ j + 1 < s.gs.length)
  exited_iff : g.pc = Pc.exited ↔ s.closed.getD (n + j) false = true

/-- Invariant of the states reached from the call `or(chs...)` with at least
two channels, made when `n` channels existed. -/
structure Inv (n : Nat) (chs : List Chan) (s : State) : Prop where
  heap : s.closed.length = n + s.gs.length
  nonempty : 0 < s.gs.length
  gor : ∀ j g, s.gs[j]? = some g → GInv n chs s j g
  sound : ∀ id, n ≤ id → s.closed.getD id false = true → ∃ c ∈ chs, recvReady s c = true

/-- The signals of `main`, lines 54-59: `sig(1*time.Hour)`, `sig(1*time.Minute)`,
`sig(1*time.Second)`, `sig(1*time.Minute)`, as firing times in seconds. -/
def mainTimes : List (Option Nat) := [some 3600, some 60, some 1, some 60]

/-- The argument list of the call of `or` in `main`: the four signals. -/
def mainChannels : List Chan := [some 0, some 1, some 2, some 3]

/-- Invariant of the states reached from any call `or(chs...)`: with fewer
than two channels no goroutine exists and no channel was made. -/
def Good (n : Nat) (chs : List Chan) (s : State) : Prop :=
  (2 ≤ chs.length ∧ Inv n chs s) ∨ (chs.length < 2 ∧ s.gs = [] ∧ s.closed.length = n)

/-- Invariant of the states reached in logical time: the constituent channels
closed are those whose firing time has come, and the returned channel `res` is
closed once the instant of a constituent firing is over. -/
structure TInv (times : List (Option Nat)) (chs : List Chan) (res : Chan)
    (ts : Nat × State) : Prop where
  good : Good times.length chs ts.2
  ext : ∀ id, id < times.length →
    (ts.2.closed.getD id false = true ↔ ∃ t, t ≤ ts.1 ∧ times.getD id none = some t)
  past : ∀ id t, some id ∈ chs → times.getD id none = some t → t < ts.1 →
    recvReady ts.2 res = true

end OrChannel

/-! ## Source sequences read by `orDone` and `fanIn` -/

/-- A source channel as its reader sees it: the values its producer still
sends, in order, and whether the producer closes the channel after the last of
them. A receive yields the next pending value; with no value pending it
reports the closure when the channel `closes`, and blocks forever otherwise. -/
structure Source (T : Type) where
  pending : List T
  closes : Bool
  deriving DecidableEq, Repr

/-! ## asynchronous/or_done_channel/main.go : cancellable pass-through -/

namespace OrDone

/-- Control point of the goroutine of `orDone` (lines 6-23). -/
inductive Pc (T : Type) where
  /-- at the outer `select` (line 9) -/
  | outer
  /-- at the inner `select` (line 16), holding the received value `v` -/
  | inner (v : T)
  /-- returned; the deferred `close(out)` ran -/
  | exited
  deriving DecidableEq, Repr

/-- State of one invocation of `orDone(done, c)`: whether `done` is closed, the
source `c`, the goroutine, the values delivered on `out` so far, and whether
`out` is closed. -/
structure State (T : Type) where
  done : Bool
  c : Source T
  pc : Pc T
  out : List T
  outClosed : Bool
  deriving DecidableEq, Repr

/-- Transitions: the environment fires the cancellation signal, or a `select`
of the goroutine proceeds with one of its cases. -/
inductive Action where
  /-- the owner of `done` closes it -/
  | cancel
  /-- `case <-done: return` (lines 10-11 and 17-18) -/
  | caseDone
  /-- `case v, ok := <-c` (line 12) -/
  | caseRecv
  /-- `case out <- v` (line 19): the consumer receives `v` -/
  | caseSend
  deriving DecidableEq, Repr

/-- One transition. A case can be chosen only when its communication can
proceed; when several can, each of them is a possible transition. -/
def step {T : Type} (a : Action) (s : State T) : Option (State T) :=
  match a with
  | Action.cancel => some { s with done := true }
  | Action.caseDone =>
    match s.pc with
    | Pc.exited => none
    | _ => if s.done then some { s with pc := Pc.exited, outClosed := true } else none
  | Action.caseRecv =>
    match s.pc with
    | Pc.outer =>
      match s.c.pending with
      | v :: rest => some { s with c := { s.c with pending := rest }, pc := Pc.inner v }
      | [] => if s.c.closes then some { s with pc := Pc.exited, outClosed := true } else none
    | _ => none
  | Action.caseSend =>
    match s.pc with
    | Pc.inner v => some { s with out := s.out ++ [v], pc := Pc.outer }
    | _ => none

/-- Run a schedule from a state. -/
def exec {T : Type} : List Action → State T → Option (State T)
  | [], s => some s
  | a :: rest, s =>
    match step a s with
    | none => none
    | some s' => exec rest s'

/-- Function `orDone(done, c)`, lines 4-25: it makes `out`, spawns the goroutine
and returns `out`. This is the state right after: `done` open, the goroutine at
its first `select`, nothing delivered on `out`, `out` open. -/
def orDone {T : Type} (c : Source T) : State T := ⟨false, c, Pc.outer, [], false⟩

/-- The value the goroutine holds, if any. -/
def held {T : Type} : Pc T → List T
  | Pc.inner v => [v]
  | _ => []

/-- Number of steps of the goroutine in a schedule. -/
def countSteps : List Action → Nat
  | [] => 0
  | Action.cancel :: rest => countSteps rest
  | _ :: rest => countSteps rest + 1

/-- Steps the goroutine can still take at most. -/
def potential {T : Type} (s : State T) : Nat :=
  match s.pc with
  | Pc.outer => 2 * s.c.pending.length + 1
  | Pc.inner _ => 2 * s.c.pending.length + 2
  | Pc.exited => 0

/-- The schedule that forwards `n` values one after the other and then
receives the closure of the source. -/
def drain : Nat → List Action
  | 0 => [Action.caseRecv]
  | n + 1 => Action.caseRecv :: Action.caseSend :: drain n

/-- Invariant of the states reached from `orDone src`. -/
structure Inv {T : Type} (src : Source T) (s : State T) : Prop where
  prefixed : s.out <+: src.pending
  split : s.pc ≠ Pc.exited → s.out ++ held s.pc ++ s.c.pending = src.pending
  closes_eq : s.c.closes = src.closes
  closed_iff : s.outClosed = true ↔ s.pc = Pc.exited
  exited_open : s.pc = Pc.exited → s.done = false → s.out = src.pending ∧ src.closes = true

end OrDone

/-! ## asynchronous/fanin/main.go : fan-in merge -/

namespace FanIn

/-- Control point of a `multiplex` goroutine (lines 13-22). -/
inductive Pc (T : Type) where
  /-- at `for n := range c`, waiting for the next value of its source -/
  | ranging
  /-- at the `select` (line 16), holding the received value `n` -/
  | holding (n : T)
  /-- returned; the deferred `wg.Done()` ran -/
  | exited
  deriving DecidableEq, Repr

/-- A `multiplex` goroutine with its parameter `c`. The channels passed to
`fanIn` are distinct, so each worker is the only reader of its `c`. -/
structure Worker (T : Type) where
  c : Source T
  pc : Pc T
  deriving DecidableEq, Repr

/-- State of one invocation of `fanIn(done, channels...)`: whether `done` is
closed, the workers, the counter of `wg`, the values delivered on `out` so far,
each with the index of the worker that sent it, and whether the last
goroutine has closed `out`. -/
structure State (T : Type) where
  done : Bool
  workers : List (Worker T)
  wg : Nat
  out : List (Nat × T)
  outClosed : Bool
  deriving DecidableEq, Repr

/-- Transitions. -/
inductive Action where
  /-- the owner of `done` closes it -/
  | cancel
  /-- worker `i`: `range c` receives the next value, or sees `c` closed and
  leaves the loop -/
  | recv (i : Nat)
  /-- worker `i`: `case <-done: return` -/
  | caseDone (i : Nat)
  /-- worker `i`: `case out <- n`, the consumer receives `n` -/
  | caseSend (i : Nat)
  /-- the last goroutine: `wg.Wait()` returns and `close(out)` runs -/
  | closeOut
  deriving DecidableEq, Repr

/-- Worker `i` returns: its control point becomes `exited` and the deferred
`wg.Done()` decrements the counter (a negative counter panics). -/
def exitWorker {T : Type} (s : State T) (i : Nat) (w : Worker T) : Option (State T) :=
  if s.wg = 0 then none
  else some { s with workers := s.workers.set i { w with pc := Pc.exited }, wg := s.wg - 1 }

/-- One transition. `range c` is a plain receive from `c`; the `select` has the
two cases `<-done` and `out <- n`; a send on a closed `out` panics; `wg.Wait()`
returns when the counter is zero. -/
def step {T : Type} (a : Action) (s : State T) : Option (State T) :=
  match a with
  | Action.cancel => some { s with done := true }
  | Action.recv i =>
    match s.workers[i]? with
    | none => none
    | some w =>
      match w.pc with
      | Pc.ranging =>
        match w.c.pending with
        | v :: rest =>
          some { s with workers := s.workers.set i ⟨{ w.c with pending := rest }, Pc.holding v⟩ }
        | [] => if w.c.closes then exitWorker s i w else none
      | _ => none
  | Action.caseDone i =>
    match s.workers[i]? with
    | none => none
    | some w =>
      match w.pc with
      | Pc.holding _ => if s.done then exitWorker s i w else none
      | _ => none
  | Action.caseSend i =>
    match s.workers[i]? with
    | none => none
    | some w =>
      match w.pc with
      | Pc.holding v =>
        if s.outClosed then none
        else some { s with workers := s.workers.set i { w with pc := Pc.ranging },
                           out := s.out ++ [(i, v)] }
      | _ => none
  | Action.closeOut =>
    if s.wg = 0 ∧ s.outClosed = false then some { s with outClosed := true } else none

/-- Run a schedule from a state. -/
def exec {T : Type} : List Action → State T → Option (State T)
  | [], s => some s
  | a :: rest, s =>
    match step a s with
    | none => none
    | some s' => exec rest s'

/-- Function `fanIn(done, channels...)`, lines 9-35: it makes `out`, adds
`len(channels)` to `wg`, spawns one `multiplex` goroutine per channel and the
goroutine that closes `out`, and returns `out`. This is the state right after:
`done` open, every worker at its `range`, nothing delivered, `out` open. -/
def fanIn {T : Type} (channels : List (Source T)) : State T :=
  ⟨false, channels.map fun c => ⟨c, Pc.ranging⟩, channels.length, [], false⟩

/-- The three sources of `main`, lines 63-85: `ch1` sends 10, 20, 30, `ch2` sends
100, 200, 300, `ch3` sends 1000, 2000, and each is closed afterwards. -/
def mainSources : List (Source Nat) :=
  [⟨[10, 20, 30], true⟩, ⟨[100, 200, 300], true⟩, ⟨[1000, 2000], true⟩]

/-- The sequence of values delivered on `out`. -/
def delivered {T : Type} (s : State T) : List T := s.out.map Prod.snd

/-- The values delivered on `out` that came from source `i`, in delivery order. -/
def deliveredFrom {T : Type} (s : State T) (i : Nat) : List T :=
  (s.out.filter fun x => x.1 == i).map Prod.snd

/-- The value a worker holds, if any. -/
def held {T : Type} : Pc T → List T
  | Pc.holding v => [v]
  | _ => []

/-- A worker that has not returned counts 1 in `wg`. -/
def live {T : Type} : Pc T → Nat
  | Pc.exited => 0
  | _ => 1

/-- Steps a worker can still take at most. -/
def potential {T : Type} (w : Worker T) : Nat :=
  match w.pc with
  | Pc.ranging => 2 * w.c.pending.length + 1
  | Pc.holding _ => 2 * w.c.pending.length + 2
  | Pc.exited => 0

/-- Steps the goroutines of `fanIn` can still take at most. -/
def totalPotential {T : Type} (s : State T) : Nat :=
  (s.workers.map potential).sum + (if s.outClosed then 0 else 1)

/-- Number of steps of the goroutines of `fanIn` in a schedule. -/
def countSteps : List Action → Nat
  | [] => 0
  | Action.cancel :: rest => countSteps rest
  | _ :: rest => countSteps rest + 1

/-- Invariant of worker `i` in a state reached from `fanIn channels`, `src`
being `channels[i]`. -/
structure WInv {T : Type} (src : Source T) (s : State T) (i : Nat) (w : Worker T) : Prop where
  prefixed : deliveredFrom s i <+: src.pending
  split : w.pc ≠ Pc.exited → deliveredFrom s i ++ held w.pc ++ w.c.pending = src.pending
  closes_eq : w.c.closes = src.closes
  exited_open : w.pc = Pc.exited → s.done = false → deliveredFrom s i = src.pending

/-- Invariant of the states reached from `fanIn channels`. -/
structure Inv {T : Type} (channels : List (Source T)) (s : State T) : Prop where
  length_eq : s.workers.length = channels.length
  worker : ∀ i w src, s.workers[i]? = some w → channels[i]? = some src → WInv src s i w
  wg_eq : s.wg = (s.workers.map fun w => live w.pc).sum
  closed_wg : s.outClosed = true → s.wg = 0
  tags : ∀ x ∈ s.out, x.1 < channels.length

end FanIn

/-! ## Auxiliary facts on lists -/

namespace Aux

theorem sum_map_set {α : Type} (f : α → Nat) (l : List α) :
    ∀ (i : Nat) (a b : α), l[i]? = some a →
      ((l.set i b).map f).sum + f a = (l.map f).sum + f b := by
  induction l with
  | nil => intro i a b h; simp at h
  | cons x t ih =>
    intro i a b h
    cases i with
    | zero =>
      simp only [List.getElem?_cons_zero, Option.some.injEq] at h
      subst h
      simp only [List.set_cons_zero, List.map_cons, List.sum_cons]
      omega
    | succ i =>
      simp only [List.getElem?_cons_succ] at h
      have := ih i a b h
      simp only [List.set_cons_succ, List.map_cons, List.sum_cons]
      omega

theorem sum_eq_zero {α : Type} (f : α → Nat) (l : List α) (h : (l.map f).sum = 0) :
    ∀ a ∈ l, f a = 0 := by
  induction l with
  | nil => intro a ha; simp at ha
  | cons x t ih =>
    intro a ha
    simp only [List.map_cons, List.sum_cons] at h
    rcases List.mem_cons.mp ha with rfl | ha
    · omega
    · exact ih (by omega) a ha

/-- A list of tagged values with tags below `n` is a permutation of the
concatenation, over the tags, of the values carrying each tag. -/
theorem tagged_perm {T : Type} (n : Nat) :
    ∀ (l : List (Nat × T)), (∀ x ∈ l, x.1 < n) →
      List.Perm (l.map Prod.snd)
        ((List.range n).map fun i => (l.filter fun x => x.1 == i).map Prod.snd).flatten := by
  induction n with
  | zero =>
    intro l h
    cases l with
    | nil => simp
    | cons x t => exact absurd (h x (List.mem_cons_self _ _)) (Nat.not_lt_zero _)
  | succ n ih =>
    intro l h
    have hsplit : List.Perm (l.filter (fun x => decide (x.1 < n)) ++
        l.filter (fun x => !decide (x.1 < n))) l := List.filter_append_perm _ l
    have hlow := ih (l.filter fun x => decide (x.1 < n)) (by
      intro x hx
      simpa using (List.mem_filter.mp hx).2)
    have hhigh : (l.filter fun x => !decide (x.1 < n)) = l.filter fun x => x.1 == n := by
      apply List.filter_congr
      intro x hx
      have := h x hx
      by_cases hxn : x.1 = n
      · simp [hxn]
      · have h1 : x.1 < n := by omega
        simp [hxn, h1]
    have hblocks : ∀ i, i < n →
        ((l.filter fun x => decide (x.1 < n)).filter fun x => x.1 == i) =
          l.filter fun x => x.1 == i := by
      intro i hi
      rw [List.filter_filter]
      apply List.filter_congr
      intro x _
      by_cases hxi : x.1 = i
      · simp [hxi, hi]
      · simp [hxi]
    have hmap : ((List.range n).map fun i =>
        (((l.filter fun x => decide (x.1 < n)).filter fun x => x.1 == i).map Prod.snd)) =
        (List.range n).map fun i => (l.filter fun x => x.1 == i).map Prod.snd := by
      apply List.map_congr_left
      intro i hi
      rw [hblocks i (List.mem_range.mp hi)]
    rw [hmap] at hlow
    rw [List.range_succ, List.map_append, List.flatten_append]
    simp only [List.map_cons, List.map_nil, List.flatten_cons, List.flatten_nil, List.append_nil]
    rw [← hhigh]
    have h1 := (hsplit.map Prod.snd).symm
    rw [List.map_append] at h1
    exact h1.trans (List.Perm.append_right _ hlow)

end Aux

namespace Chunk

theorem wrapInt_eq (x : Int) (hlo : -9223372036854775808 ≤ x) (hhi : x ≤ maxInt) :
    wrapInt x = x := by
  unfold wrapInt
  unfold maxInt at hhi
  omega

theorem tilesFrom_length (total c i : Int) (n : Nat) :
    (tilesFrom total c i n).length = n := by
  induction n generalizing i with
  | zero => rfl
  | succ n ih => simp [tilesFrom, ih]

theorem tilesFrom_getElem? (total c : Int) (n : Nat) :
    ∀ (i : Int) (j : Nat), j < n →
      (tilesFrom total c i n)[j]? = some ⟨i + j * c, min (i + (j + 1) * c) total⟩ := by
  induction n with
  | zero => intro i j hj; omega
  | succ n ih =>
    intro i j hj
    cases j with
    | zero => simp [tilesFrom]
    | succ j =>
      have h := ih (i + c) j (by omega)
      simp only [tilesFrom, List.getElem?_cons_succ, h]
      push_cast
      congr 2 <;> ring_nf

/-- Number of loop iterations: the ceiling of `total / c`. -/
theorem ceil_bounds (total c : Int) (ht : 0 < total) (hc : 0 < c) :
    0 < (total + c - 1) / c ∧ total ≤ (total + c - 1) / c * c ∧
      (total + c - 1) / c * c < total + c := by
  have h1 := Int.ediv_add_emod (total + c - 1) c
  have h2 := Int.emod_nonneg (total + c - 1) (ne_of_gt hc)
  have h3 := Int.emod_lt_of_pos (total + c - 1) hc
  have h4 : (total + c - 1) / c * c = c * ((total + c - 1) / c) := by ring
  have h5 : 0 < (total + c - 1) / c := by
    by_contra hcon
    have : c * ((total + c - 1) / c) ≤ c * 0 :=
      mul_le_mul_of_nonneg_left (by omega) (le_of_lt hc)
    omega
  refine ⟨h5, ?_, ?_⟩ <;> omega

theorem boundariesLoop_eq (total c : Int) (hc : 0 < c) (n : Nat) :
    ∀ (fuel : Nat) (i : Int) (acc : List Indices), 0 ≤ i → n < fuel →
      total ≤ i + n * c → i + n * c < total + c → i + n * c ≤ maxInt →
      boundariesLoop fuel total c i acc = some (acc ++ tilesFrom total c i n) := by
  induction n with
  | zero =>
    intro fuel i acc hi hf hle _ _
    obtain ⟨f, rfl⟩ : ∃ f, fuel = f + 1 := ⟨fuel - 1, by omega⟩
    have : ¬ i < total := by simpa using hle
    simp [boundariesLoop, tilesFrom, this]
  | succ n ih =>
    intro fuel i acc hi hf hle hlt hmax
    obtain ⟨f, rfl⟩ : ∃ f, fuel = f + 1 := ⟨fuel - 1, by omega⟩
    have hnc : (0 : Int) ≤ n * c := mul_nonneg (by omega) (le_of_lt hc)
    have hcast : ((n + 1 : Nat) : Int) * c = n * c + c := by push_cast; ring
    rw [hcast] at hle hlt hmax
    have hit : i < total := by omega
    have hw : wrapInt (i + c) = i + c := by
      apply wrapInt_eq <;> omega
    have hrec := ih f (i + c) (acc ++ [⟨i, min (i + c) total⟩]) (by omega) (by omega)
      (by omega) (by omega) (by omega)
    unfold boundariesLoop
    rw [hw]
    by_cases hle2 : i + c ≤ total
    · have hm : min (i + c) total = i + c := min_eq_left hle2
      simp only [hit, hle2, if_true]
      rw [hm] at hrec
      simp [hrec, tilesFrom, hm]
    · have hm : min (i + c) total = total := min_eq_right (by omega)
      simp only [hit, hle2, if_true, if_false]
      rw [hm] at hrec
      simp [hrec, tilesFrom, hm]

theorem CalculateChunkBoundaries_eq (fuel : Nat) (total c : Int) (ht : 0 < total)
    (hc : 0 < c) (hov : (total + c - 1) / c * c ≤ maxInt) (hf : total.toNat < fuel) :
    CalculateChunkBoundaries fuel total c =
      some (tilesFrom total c 0 ((total + c - 1) / c).toNat) := by
  obtain ⟨hq, hlo, hhi⟩ := ceil_bounds total c ht hc
  have hcast : (((total + c - 1) / c).toNat : Int) = (total + c - 1) / c :=
    Int.toNat_of_nonneg (le_of_lt hq)
  unfold CalculateChunkBoundaries
  have h1 : ¬ total ≤ 0 := by omega
  have h2 : ¬ c ≤ 0 := by omega
  simp only [h1, h2, if_false]
  by_cases h3 : total < c
  · have hq1 : (total + c - 1) / c = 1 := by
      have : (total + c - 1) / c * c < 2 * c := by omega
      have h4 : (total + c - 1) / c < 2 := by
        by_contra hcon
        have : 2 * c ≤ (total + c - 1) / c * c :=
          mul_le_mul_of_nonneg_right (by omega) (le_of_lt hc)
        omega
      omega
    simp [h3, hq1, tilesFrom, min_eq_right (le_of_lt h3)]
  · simp only [h3, if_false]
    have hn : ((total + c - 1) / c).toNat < fuel := by
      have : (total + c - 1) / c ≤ total := by
        by_contra hcon
        have : (total + 1) * c ≤ (total + c - 1) / c * c :=
          mul_le_mul_of_nonneg_right (by omega) (le_of_lt hc)
        have : total * 1 ≤ total * c := mul_le_mul_of_nonneg_left (by omega) (by omega)
        have : (total + 1) * c = total * c + c := by ring
        omega
      omega
    have := boundariesLoop_eq total c hc ((total + c - 1) / c).toNat fuel 0 [] le_rfl hn
      (by rw [hcast]; omega) (by rw [hcast]; omega) (by rw [hcast]; omega)
    simpa using this

end Chunk

namespace Chunk

/-- C10 (amended): for `totalLength > 0`, `chunkingSize > 0` such that the
smallest multiple of `chunkingSize` not below `totalLength` does not exceed the
largest `int`, `CalculateChunkBoundaries` returns (given enough fuel) ranges
that tile `[0, totalLength)`: there are `⌈totalLength /
chunkingSize⌉` of them, the first starts at 0, each starts where the previous
one ends, every range but the last has length `chunkingSize`, and the last
ends at `totalLength` with a length between 1 and `chunkingSize`. -/
theorem CalculateChunkBoundaries_tiles (fuel : Nat) (totalLength chunkingSize : Int)
    (ht : 0 < totalLength) (hc : 0 < chunkingSize)
    (hov : (totalLength + chunkingSize - 1) / chunkingSize * chunkingSize ≤ maxInt)
    (hf : totalLength.toNat < fuel) :
    ∃ r, CalculateChunkBoundaries fuel totalLength chunkingSize = some r ∧
      (r.length : Int) = (totalLength + chunkingSize - 1) / chunkingSize ∧
      (∃ f, r.head? = some f ∧ f.Start = 0) ∧
      (∀ (j : Nat) (a b : Indices), r[j]? = some a → r[j + 1]? = some b →
          b.Start = a.End ∧ a.End - a.Start = chunkingSize) ∧
      (∃ l, r.getLast? = some l ∧ l.End = totalLength ∧
          1 ≤ l.End - l.Start ∧ l.End - l.Start ≤ chunkingSize) := by
  obtain ⟨hq, hlo, hhi⟩ := ceil_bounds totalLength chunkingSize ht hc
  have hcast : (((totalLength + chunkingSize - 1) / chunkingSize).toNat : Int) =
      (totalLength + chunkingSize - 1) / chunkingSize := Int.toNat_of_nonneg (le_of_lt hq)
  generalize hn : ((totalLength + chunkingSize - 1) / chunkingSize).toNat = n at hcast
  have hn0 : 0 < n := by omega
  rw [← hcast] at hlo hhi
  refine ⟨tilesFrom totalLength chunkingSize 0 n, ?_, ?_, ?_, ?_, ?_⟩
  · rw [← hn]; exact CalculateChunkBoundaries_eq fuel totalLength chunkingSize ht hc hov hf
  · rw [tilesFrom_length, hcast]
  · refine ⟨⟨0, min chunkingSize totalLength⟩, ?_, rfl⟩
    rw [List.head?_eq_getElem?, tilesFrom_getElem? _ _ _ _ _ hn0]
    simp
  · intro j a b ha hb
    have hj : j + 1 < n := by
      have := (List.getElem?_eq_some.mp hb).1
      rwa [tilesFrom_length] at this
    rw [tilesFrom_getElem? _ _ _ _ _ (by omega)] at ha hb
    have hmul : ((j : Int) + 1) * chunkingSize ≤ ((n : Int) - 1) * chunkingSize :=
      mul_le_mul_of_nonneg_right (by omega) (le_of_lt hc)
    have hexp : ((n : Int) - 1) * chunkingSize = n * chunkingSize - chunkingSize := by ring
    have hexp2 : ((j : Int) + 1) * chunkingSize = j * chunkingSize + chunkingSize := by ring
    have hmin : min (0 + ((j : Int) + 1) * chunkingSize) totalLength =
        0 + ((j : Int) + 1) * chunkingSize := min_eq_left (by omega)
    rw [hmin] at ha
    cases ha; cases hb
    constructor
    · push_cast; ring
    · simp only; omega
  · refine ⟨⟨((n : Int) - 1) * chunkingSize, totalLength⟩, ?_, rfl, ?_, ?_⟩
    · rw [List.getLast?_eq_getElem?, tilesFrom_length,
        tilesFrom_getElem? _ _ _ _ _ (by omega : n - 1 < n)]
      have h1 : ((n - 1 : Nat) : Int) = (n : Int) - 1 := by omega
      have hmin : min (0 + (((n - 1 : Nat) : Int) + 1) * chunkingSize) totalLength =
          totalLength := by
        rw [h1]; apply min_eq_right; simpa using hlo
      rw [hmin, h1]; simp
    · have hexp : ((n : Int) - 1) * chunkingSize = n * chunkingSize - chunkingSize := by ring
      simp only; omega
    · have hexp : ((n : Int) - 1) * chunkingSize = n * chunkingSize - chunkingSize := by ring
      simp only; omega

/-- Witness of `CalculateChunkBoundaries_tiles` at `totalLength = 10`,
`chunkingSize = 3`. -/
theorem CalculateChunkBoundaries_tiles_witness :
    ∃ r, CalculateChunkBoundaries 11 10 3 = some r ∧
      (r.length : Int) = (10 + 3 - 1) / 3 ∧
      (∃ f, r.head? = some f ∧ f.Start = 0) ∧
      (∀ (j : Nat) (a b : Indices), r[j]? = some a → r[j + 1]? = some b →
          b.Start = a.End ∧ a.End - a.Start = 3) ∧
      (∃ l, r.getLast? = some l ∧ l.End = 10 ∧
          1 ≤ l.End - l.Start ∧ l.End - l.Start ≤ 3) :=
  CalculateChunkBoundaries_tiles 11 10 3 (by decide) (by decide) (by decide) (by decide)

end Chunk

namespace Chunk

theorem tilesFrom_bounds (total c : Int) (hc : 0 < c) (n : Nat) :
    ∀ (i : Int), 0 ≤ i → i + n * c < total + c →
      ∀ idx ∈ tilesFrom total c i n,
        0 ≤ idx.Start ∧ idx.Start ≤ idx.End ∧ idx.End ≤ total := by
  induction n with
  | zero => intro i _ _ idx h; simp [tilesFrom] at h
  | succ n ih =>
    intro i hi hlt idx h
    have hnc : (0 : Int) ≤ n * c := mul_nonneg (by omega) (le_of_lt hc)
    have hcast : ((n + 1 : Nat) : Int) * c = n * c + c := by push_cast; ring
    rw [hcast] at hlt
    simp only [tilesFrom, List.mem_cons] at h
    rcases h with h | h
    · subst h
      refine ⟨hi, ?_, min_le_right _ _⟩
      show i ≤ min (i + c) total
      exact le_min (by omega) (by omega)
    · exact ih (i + c) (by omega) (by omega) idx h

theorem slice_inBounds {T : Type} (s : Slice T) (lo hi : Int) (h0 : 0 ≤ lo) (h1 : lo ≤ hi)
    (h2 : hi ≤ s.len) : ∃ c, s.slice lo hi = some c := by
  have hcap : hi ≤ s.cap := by
    unfold Slice.len at h2
    unfold Slice.cap
    omega
  unfold Slice.slice
  rw [if_pos ⟨h0, h1, hcap⟩]
  exact ⟨_, rfl⟩

theorem allocLoop_eq {T : Type} (s : Slice T) (k : Int) (hk : 0 < k) (n : Nat) :
    ∀ (fuel : Nat) (i : Int) (acc : List (Slice T)), 0 ≤ i → n < fuel →
      s.len ≤ i + n * k → i + n * k < s.len + k → i + n * k ≤ maxInt →
      ∃ cs, ChunkWithIndices s (tilesFrom s.len k i n) = some cs ∧
        allocLoop fuel s k i acc = some (acc ++ cs) := by
  induction n with
  | zero =>
    intro fuel i acc hi hf hle _ _
    obtain ⟨f, rfl⟩ : ∃ f, fuel = f + 1 := ⟨fuel - 1, by omega⟩
    have : ¬ i < s.len := by simpa using hle
    exact ⟨[], by simp [ChunkWithIndices, tilesFrom], by simp [allocLoop, this]⟩
  | succ n ih =>
    intro fuel i acc hi hf hle hlt hmax
    obtain ⟨f, rfl⟩ : ∃ f, fuel = f + 1 := ⟨fuel - 1, by omega⟩
    have hnc : (0 : Int) ≤ n * k := mul_nonneg (by omega) (le_of_lt hk)
    have hcast : ((n + 1 : Nat) : Int) * k = n * k + k := by push_cast; ring
    rw [hcast] at hle hlt hmax
    have hit : i < s.len := by omega
    have hw : wrapInt (i + k) = i + k := by
      apply wrapInt_eq <;> omega
    have hend : (if i + k > s.len then s.len else i + k) = min (i + k) s.len := by
      by_cases h : i + k ≤ s.len
      · rw [min_eq_left h, if_neg (by omega)]
      · rw [min_eq_right (by omega), if_pos (by omega)]
    obtain ⟨c, hcs⟩ := slice_inBounds s i (min (i + k) s.len) hi
      (le_min (by omega) (by omega)) (min_le_right _ _)
    obtain ⟨cs, h1, h2⟩ := ih f (i + k) (acc ++ [c]) (by omega) (by omega) (by omega)
      (by omega) (by omega)
    refine ⟨c :: cs, ?_, ?_⟩
    · simp [tilesFrom, ChunkWithIndices, hcs, h1]
    · unfold allocLoop
      rw [hw, hend]
      simp [hit, hcs, h2]

/-- C9 (amended): for every slice `s` and chunk size `k > 0` such that the
smallest multiple of `k` not below `len(s)` does not exceed the largest `int`,
slicing `s` at the boundaries of
`CalculateChunkBoundaries(len(s), k)` returns (given enough fuel) the same
chunks as `AllocationBasedChunk(s, k)`, every boundary lies within
`0 ≤ Start ≤ End ≤ len(s)`, an empty slice gives no chunk and a slice shorter
than `k` gives the single chunk `s[0:len(s)]`. -/
theorem chunkByBoundaries_eq_AllocationBasedChunk {T : Type} (fuel : Nat) (s : Slice T)
    (k : Int) (hk : 0 < k) (hov : (s.len + k - 1) / k * k ≤ maxInt)
    (hf : s.len.toNat < fuel) :
    ∃ chunks, chunkByBoundaries fuel s k = some chunks ∧
      AllocationBasedChunk fuel s k = some chunks ∧
      (∃ r, CalculateChunkBoundaries fuel s.len k = some r ∧
        ∀ idx ∈ r, 0 ≤ idx.Start ∧ idx.Start ≤ idx.End ∧ idx.End ≤ s.len) ∧
      (s.len = 0 → chunks = []) ∧
      (0 < s.len → s.len < k → ∃ c, s.slice 0 s.len = some c ∧ chunks = [c]) := by
  have hlen0 : 0 ≤ s.len := by unfold Slice.len; omega
  by_cases hz : s.len = 0
  · refine ⟨[], ?_, ?_, ⟨[], ?_, ?_⟩, fun _ => rfl, fun h => by omega⟩
    · simp [chunkByBoundaries, CalculateChunkBoundaries, hz, ChunkWithIndices]
    · simp [AllocationBasedChunk, hz]
    · simp [CalculateChunkBoundaries, hz]
    · intro idx h; simp at h
  · have ht : 0 < s.len := by omega
    obtain ⟨hq, hlo, hhi⟩ := ceil_bounds s.len k ht hk
    have hB := CalculateChunkBoundaries_eq fuel s.len k ht hk hov hf
    have hcast : (((s.len + k - 1) / k).toNat : Int) = (s.len + k - 1) / k :=
      Int.toNat_of_nonneg (le_of_lt hq)
    generalize hn : ((s.len + k - 1) / k).toNat = n at hcast hB
    rw [← hcast] at hlo hhi
    have hnf : n < fuel := by
      have hkn : (n : Int) * 1 ≤ n * k := mul_le_mul_of_nonneg_left (by omega) (by omega)
      have : (n : Int) < s.len + 1 := by
        by_contra hcon
        have : (s.len + 1) * k ≤ n * k := mul_le_mul_of_nonneg_right (by omega) (le_of_lt hk)
        have : s.len * 1 ≤ s.len * k := mul_le_mul_of_nonneg_left (by omega) (by omega)
        have : (s.len + 1) * k = s.len * k + k := by ring
        omega
      omega
    rw [← hcast] at hov
    obtain ⟨cs, h1, h2⟩ := allocLoop_eq s k hk n fuel 0 [] le_rfl hnf (by omega) (by omega)
      (by omega)
    refine ⟨cs, ?_, ?_, ⟨_, hB, ?_⟩, fun h => absurd h hz, ?_⟩
    · simp [chunkByBoundaries, hB, h1]
    · simpa [AllocationBasedChunk, hz] using h2
    · exact tilesFrom_bounds s.len k hk n 0 le_rfl (by omega)
    · intro _ hlt
      have hn1 : n = 1 := by
        have : (n : Int) < 2 := by
          by_contra hcon
          have : 2 * k ≤ n * k := mul_le_mul_of_nonneg_right (by omega) (le_of_lt hk)
          omega
        omega
      subst hn1
      obtain ⟨c, hc⟩ := slice_inBounds s 0 s.len le_rfl hlen0 le_rfl
      refine ⟨c, hc, ?_⟩
      have hm : min k s.len = s.len := min_eq_right (by omega)
      simp [tilesFrom, ChunkWithIndices, hm, hc] at h1
      exact h1.symm

/-- Witness of `chunkByBoundaries_eq_AllocationBasedChunk` at the slice
`[1,2,3,4,5,6,7]` (capacity 8) and `k = 3`. -/
theorem chunkByBoundaries_eq_AllocationBasedChunk_witness :
    ∃ chunks, chunkByBoundaries 8 (⟨[1, 2, 3, 4, 5, 6, 7], [0]⟩ : Slice Nat) 3 = some chunks ∧
      AllocationBasedChunk 8 (⟨[1, 2, 3, 4, 5, 6, 7], [0]⟩ : Slice Nat) 3 = some chunks ∧
      (∃ r, CalculateChunkBoundaries 8 (⟨[1, 2, 3, 4, 5, 6, 7], [0]⟩ : Slice Nat).len 3 = some r ∧
        ∀ idx ∈ r, 0 ≤ idx.Start ∧ idx.Start ≤ idx.End ∧
          idx.End ≤ (⟨[1, 2, 3, 4, 5, 6, 7], [0]⟩ : Slice Nat).len) ∧
      ((⟨[1, 2, 3, 4, 5, 6, 7], [0]⟩ : Slice Nat).len = 0 → chunks = []) ∧
      (0 < (⟨[1, 2, 3, 4, 5, 6, 7], [0]⟩ : Slice Nat).len →
        (⟨[1, 2, 3, 4, 5, 6, 7], [0]⟩ : Slice Nat).len < 3 →
        ∃ c, (⟨[1, 2, 3, 4, 5, 6, 7], [0]⟩ : Slice Nat).slice 0
          (⟨[1, 2, 3, 4, 5, 6, 7], [0]⟩ : Slice Nat).len = some c ∧ chunks = [c]) :=
  chunkByBoundaries_eq_AllocationBasedChunk 8 ⟨[1, 2, 3, 4, 5, 6, 7], [0]⟩ 3
    (by decide) (by decide) (by decide)

end Chunk

namespace Chunk

/-- With `totalLength = 2^63-1` and `chunkingSize = 2^63-2` the loop counter
stays even, hence below the odd `totalLength`, and the loop never leaves. -/
theorem boundariesLoop_diverges (fuel : Nat) :
    ∀ (i : Int) (acc : List Indices), i % 2 = 0 → i ≤ 9223372036854775807 →
      boundariesLoop fuel 9223372036854775807 9223372036854775806 i acc = none := by
  induction fuel with
  | zero => intro i acc _ _; rfl
  | succ f ih =>
    intro i acc hev hle
    have hlt : i < 9223372036854775807 := by omega
    have hev2 : wrapInt (i + 9223372036854775806) % 2 = 0 := by unfold wrapInt; omega
    have hle2 : wrapInt (i + 9223372036854775806) ≤ 9223372036854775807 := by
      unfold wrapInt; omega
    unfold boundariesLoop
    rw [if_pos hlt]
    split
    · exact ih _ _ hev2 hle2
    · exact ih _ _ hev2 hle2

theorem CalculateChunkBoundaries_diverges (fuel : Nat) :
    CalculateChunkBoundaries fuel 9223372036854775807 9223372036854775806 = none := by
  unfold CalculateChunkBoundaries
  rw [if_neg (by decide), if_neg (by decide), if_neg (by decide)]
  exact boundariesLoop_diverges fuel 0 [] (by decide) (by decide)

/-- C10 (as stated) fails: at `totalLength = 2^63-1`, `chunkingSize = 2^63-2`
(both positive `int`s) `i + chunkingSize` overflows and
`CalculateChunkBoundaries` returns no list of ranges, whatever the fuel. -/
theorem CalculateChunkBoundaries_overflow_counterexample :
    (0 : Int) < 9223372036854775807 ∧ (0 : Int) < 9223372036854775806 ∧
      ¬ ∃ fuel r, CalculateChunkBoundaries fuel 9223372036854775807 9223372036854775806
        = some r := by
  refine ⟨by decide, by decide, ?_⟩
  rintro ⟨fuel, r, h⟩
  rw [CalculateChunkBoundaries_diverges] at h
  exact Option.noConfusion h

theorem len_replicate_unit :
    (⟨List.replicate 9223372036854775807 (), []⟩ : Slice Unit).len = 9223372036854775807 := by
  show ((List.replicate 9223372036854775807 ()).length : Int) = 9223372036854775807
  rw [List.length_replicate]
  rfl

theorem chunkByBoundaries_diverges {T : Type} (s : Slice T)
    (hlen : s.len = 9223372036854775807) (fuel : Nat) :
    chunkByBoundaries fuel s 9223372036854775806 = none := by
  unfold chunkByBoundaries
  rw [hlen, CalculateChunkBoundaries_diverges]

theorem allocLoop_step {T : Type} (s : Slice T) (k i e : Int) (acc : List (Slice T))
    (f : Nat) (c : Slice T) (hi : i < s.len)
    (he : (if wrapInt (i + k) > s.len then s.len else wrapInt (i + k)) = e)
    (hc : s.slice i e = some c) :
    allocLoop (f + 1) s k i acc = allocLoop f s k (wrapInt (i + k)) (acc ++ [c]) := by
  rw [allocLoop, if_pos hi, he, hc]

theorem allocLoop_panic {T : Type} (s : Slice T) (k i e : Int) (acc : List (Slice T))
    (f : Nat) (hi : i < s.len)
    (he : (if wrapInt (i + k) > s.len then s.len else wrapInt (i + k)) = e)
    (hc : s.slice i e = none) :
    allocLoop (f + 1) s k i acc = none := by
  rw [allocLoop, if_pos hi, he, hc]

theorem allocLoop_first_panics {T : Type} (s : Slice T)
    (hlen : s.len = 9223372036854775807) (fuel : Nat) :
    allocLoop fuel s 9223372036854775806 0 [] = none := by
  have hw1 : wrapInt (0 + 9223372036854775806) = 9223372036854775806 := by
    unfold wrapInt; omega
  have hw2 : wrapInt (9223372036854775806 + 9223372036854775806) = -4 := by
    unfold wrapInt; omega
  have hbad : s.slice 9223372036854775806 (-4) = none := by
    unfold Slice.slice
    rw [if_neg (by omega)]
  obtain ⟨c, hc⟩ := slice_inBounds s 0 9223372036854775806 (by decide) (by decide)
    (by rw [hlen]; decide)
  cases fuel with
  | zero => rfl
  | succ f =>
    rw [allocLoop_step s _ 0 9223372036854775806 [] f c (by rw [hlen]; decide)
      (by rw [hw1, hlen]; decide) hc, hw1]
    cases f with
    | zero => rfl
    | succ g =>
      exact allocLoop_panic s _ _ (-4) _ g (by rw [hlen]; decide)
        (by rw [hw2, hlen]; decide) hbad

theorem AllocationBasedChunk_panics {T : Type} (s : Slice T)
    (hlen : s.len = 9223372036854775807) (fuel : Nat) :
    AllocationBasedChunk fuel s 9223372036854775806 = none := by
  unfold AllocationBasedChunk
  rw [hlen, if_neg (by decide)]
  exact allocLoop_first_panics s hlen fuel

/-- C9 (as stated) fails: for the slice of `2^63-1` zero-size elements and
`k = 2^63-2 > 0`, neither side returns a list of chunks: the boundary
computation never leaves its loop, and `AllocationBasedChunk` panics on the
slice expression `s[2^63-2 : -4]` of its second iteration. -/
theorem chunkByBoundaries_overflow_counterexample :
    (0 : Int) < 9223372036854775806 ∧
    (¬ ∃ fuel chunks, chunkByBoundaries fuel
        (⟨List.replicate 9223372036854775807 (), []⟩ : Slice Unit) 9223372036854775806
          = some chunks) ∧
    (¬ ∃ fuel chunks, AllocationBasedChunk fuel
        (⟨List.replicate 9223372036854775807 (), []⟩ : Slice Unit) 9223372036854775806
          = some chunks) := by
  refine ⟨by decide, ?_, ?_⟩
  · rintro ⟨fuel, chunks, h⟩
    rw [chunkByBoundaries_diverges _ len_replicate_unit] at h
    exact Option.noConfusion h
  · rintro ⟨fuel, chunks, h⟩
    rw [AllocationBasedChunk_panics _ len_replicate_unit] at h
    exact Option.noConfusion h

end Chunk

namespace OrChannel

/-! ### Channel flags -/

theorem getD_set_ne (cl : List Bool) (i j : Nat) (h : i ≠ j) :
    (cl.set i true).getD j false = cl.getD j false := by
  simp [List.getD_eq_getElem?_getD, List.getElem?_set, h]

theorem getD_set_self (cl : List Bool) (i : Nat) (h : i < cl.length) :
    (cl.set i true).getD i false = true := by
  simp [List.getD_eq_getElem?_getD, List.getElem?_set, h]

theorem getD_set_mono (cl : List Bool) (i j : Nat) (h : cl.getD j false = true) :
    (cl.set i true).getD j false = true := by
  by_cases hij : i = j
  · subst hij
    have hlt : i < cl.length := by
      by_contra hcon
      simp [List.getD_eq_getElem?_getD, List.getElem?_eq_none (Nat.le_of_not_lt hcon)] at h
    exact getD_set_self cl i hlt
  · rw [getD_set_ne cl i j hij]; exact h

theorem getD_append_false (cl : List Bool) (j : Nat) :
    (cl ++ [false]).getD j false = cl.getD j false := by
  simp only [List.getD_eq_getElem?_getD]
  by_cases h : j < cl.length
  · rw [List.getElem?_append_left h]
  · rw [List.getElem?_append_right (Nat.le_of_not_lt h),
      List.getElem?_eq_none (Nat.le_of_not_lt h)]
    cases hk : j - cl.length with
    | zero => simp
    | succ k => simp

theorem getD_lt_of_true (cl : List Bool) (j : Nat) (h : cl.getD j false = true) :
    j < cl.length := by
  by_contra hcon
  simp [List.getD_eq_getElem?_getD, List.getElem?_eq_none (Nat.le_of_not_lt hcon)] at h

theorem recvReady_congr (s s' : State) (h : s'.closed = s.closed) (c : Chan) :
    recvReady s' c = recvReady s c := by
  cases c <;> simp [recvReady, h]

/-! ### The function `or` -/

theorem or_snoc_nil (x : Chan) (s : State) : or ([] ++ [x]) s = (x, s) := rfl

theorem or_snoc_cons (y : Chan) (rest : List Chan) (x : Chan) (s : State) :
    or ((y :: rest) ++ [x]) s =
      (some s.closed.length,
        ⟨s.closed ++ [false],
          s.gs ++ [⟨(y :: rest) ++ [x], s.closed.length, Pc.start⟩]⟩) := by
  cases rest <;> rfl

theorem or_two_le (chs : List Chan) (h : 2 ≤ chs.length) (s : State) :
    or chs s = (some s.closed.length,
        ⟨s.closed ++ [false], s.gs ++ [⟨chs, s.closed.length, Pc.start⟩]⟩) := by
  match chs, h with
  | _ :: _ :: _, _ => rfl

/-! ### The channel lists down the recursion -/

theorem chanAt_mem (n : Nat) (chs : List Chan) (j : Nat) (x : Chan)
    (h : x ∈ chanAt n chs j) : x ∈ chs ∨ ∃ i, x = some (n + i) := by
  induction j with
  | zero => exact Or.inl h
  | succ j ih =>
    simp only [chanAt, List.mem_append, List.mem_singleton] at h
    rcases h with h | h
    · exact ih (List.mem_of_mem_drop h)
    · exact Or.inr ⟨j, h⟩

theorem chanAt_length (n : Nat) (chs : List Chan) (j : Nat)
    (h : ∀ i, i < j → 3 ≤ (chanAt n chs i).length) :
    (chanAt n chs j).length + 2 * j = chs.length := by
  induction j with
  | zero => rfl
  | succ j ih =>
    have h1 := ih (fun i hi => h i (by omega))
    have h2 := h j (by omega)
    simp only [chanAt, List.length_append, List.length_drop, List.length_singleton]
    omega

theorem expectedPc_alts (k : Nat) (cs : List Chan) (pc : Pc)
    (h : expectedPc k cs = some pc) (x : Chan) (hx : x ∈ alts pc) :
    x ∈ cs ∨ x = some k ∨ x = some (k + 1) := by
  match cs, h with
  | [a, b], h =>
    simp only [expectedPc, Option.some.injEq] at h
    subst h
    simp only [alts] at hx
    exact Or.inl hx
  | [a, b, c], h =>
    simp only [expectedPc, Option.some.injEq] at h
    subst h
    simp only [alts, List.mem_cons, List.mem_singleton, List.not_mem_nil, or_false] at hx
    rcases hx with hx | hx | hx | hx
    · exact Or.inl (by simp [hx])
    · exact Or.inl (by simp [hx])
    · exact Or.inl (by simp [hx])
    · exact Or.inr (Or.inl hx)
  | a :: b :: c :: d :: rest, h =>
    simp only [expectedPc, Option.some.injEq] at h
    subst h
    simp only [alts, List.mem_cons, List.mem_singleton, List.not_mem_nil, or_false] at hx
    rcases hx with hx | hx | hx | hx
    · exact Or.inl (by simp [hx])
    · exact Or.inl (by simp [hx])
    · exact Or.inl (by simp [hx])
    · exact Or.inr (Or.inr hx)

/-! ### The invariant -/

theorem GInv.transfer_same {n : Nat} {chs : List Chan} {s s' : State} {j : Nat}
    {g : Goroutine} (h : GInv n chs s j g) (hlen : s'.gs.length = s.gs.length)
    (hcl : s'.closed.getD (n + j) false = s.closed.getD (n + j) false) :
    GInv n chs s' j g :=
  { orDone_eq := h.orDone_eq
    channels_eq := h.channels_eq
    two_le := h.two_le
    start_last := fun hp => by rw [hlen]; exact h.start_last hp
    pc_ok := h.pc_ok
    succ_iff := fun hp => by rw [hlen]; exact h.succ_iff hp
    exited_iff := by rw [hcl]; exact h.exited_iff }

theorem GInv.transfer_grow {n : Nat} {chs : List Chan} {s s' : State} {j : Nat}
    {g : Goroutine} (h : GInv n chs s j g) (hpc : g.pc ≠ Pc.start)
    (hlen : j + 1 < s.gs.length ↔ j + 1 < s'.gs.length)
    (hcl : s'.closed.getD (n + j) false = s.closed.getD (n + j) false) :
    GInv n chs s' j g :=
  { orDone_eq := h.orDone_eq
    channels_eq := h.channels_eq
    two_le := h.two_le
    start_last := fun hp => absurd hp hpc
    pc_ok := h.pc_ok
    succ_iff := fun hp => (h.succ_iff hp).trans hlen
    exited_iff := by rw [hcl]; exact h.exited_iff }

theorem or_inv_init (h : List Bool) (chs : List Chan) (h2 : 2 ≤ chs.length) :
    Inv h.length chs (or chs (callState h)).2 := by
  have hopen : ∀ id, h.getD id false = true → id < h.length := getD_lt_of_true h
  rw [or_two_le chs h2]
  refine ⟨by simp [callState], by simp [callState], ?_, ?_⟩
  · intro j g hj
    simp only [callState, List.nil_append] at hj
    cases j with
    | zero =>
      simp only [List.getElem?_cons_zero, Option.some.injEq] at hj
      subst hj
      refine ⟨rfl, rfl, h2, fun _ => rfl, fun hp => absurd rfl hp, fun hp => absurd rfl hp, ?_⟩
      simp only [callState, Nat.add_zero, getD_append_false]
      constructor
      · intro hp; cases hp
      · intro hc; exact absurd (hopen _ hc) (Nat.lt_irrefl _)
    | succ j => simp at hj
  · intro id hid hc
    simp only [callState, getD_append_false] at hc
    exact absurd (hopen _ hc) (by omega)

end OrChannel

namespace OrChannel

theorem stepGoroutine_cases (s s' : State) (g : Nat) (h : stepGoroutine s g = some s') :
    ∃ gr, s.gs[g]? = some gr ∧
      ((gr.pc = Pc.start ∧ ∃ a b, gr.channels = [a, b] ∧
          s' = setPc s g gr (Pc.wait2 a b)) ∨
       (gr.pc = Pc.start ∧ ∃ a b c rest, gr.channels = a :: b :: c :: rest ∧
          s' = setPc (or (rest ++ [some gr.orDone]) s).2 g gr
            (Pc.wait4 a b c (or (rest ++ [some gr.orDone]) s).1)) ∨
       (gr.pc ≠ Pc.start ∧ gr.pc ≠ Pc.exited ∧ (∃ x ∈ alts gr.pc, recvReady s x = true) ∧
          closeChan (setPc s g gr Pc.exited) gr.orDone = some s')) := by
  unfold stepGoroutine at h
  cases hg : s.gs[g]? with
  | none => simp [hg] at h
  | some gr =>
    refine ⟨gr, rfl, ?_⟩
    simp only [hg] at h
    cases hpc : gr.pc with
    | start =>
      simp only [hpc] at h
      cases hch : gr.channels with
      | nil => simp [hch] at h
      | cons a t1 =>
        cases t1 with
        | nil => simp [hch] at h
        | cons b t2 =>
          cases t2 with
          | nil =>
            simp only [hch, Option.some.injEq] at h
            exact Or.inl ⟨rfl, a, b, rfl, h.symm⟩
          | cons c rest =>
            simp only [hch, Option.some.injEq] at h
            exact Or.inr (Or.inl ⟨rfl, a, b, c, rest, rfl, h.symm⟩)
    | wait2 a b =>
      simp only [hpc] at h
      by_cases hr : (recvReady s a || recvReady s b) = true
      · simp only [hr, if_true] at h
        refine Or.inr (Or.inr ⟨by simp, by simp, ?_, h⟩)
        simp only [Bool.or_eq_true] at hr
        rcases hr with hr | hr
        · exact ⟨a, by simp [alts], hr⟩
        · exact ⟨b, by simp [alts], hr⟩
      · simp [hr] at h
    | wait4 a b c r =>
      simp only [hpc] at h
      by_cases hr : (recvReady s a || recvReady s b || recvReady s c || recvReady s r) = true
      · simp only [hr, if_true] at h
        refine Or.inr (Or.inr ⟨by simp, by simp, ?_, h⟩)
        simp only [Bool.or_eq_true] at hr
        rcases hr with ((hr | hr) | hr) | hr
        · exact ⟨a, by simp [alts], hr⟩
        · exact ⟨b, by simp [alts], hr⟩
        · exact ⟨c, by simp [alts], hr⟩
        · exact ⟨r, by simp [alts], hr⟩
      · simp [hr] at h
    | exited => simp [hpc] at h

theorem alts_sound {n : Nat} {chs : List Chan} {s : State} (hinv : Inv n chs s)
    (g : Nat) (gr : Goroutine) (hg : s.gs[g]? = some gr) (hs : gr.pc ≠ Pc.start)
    (he : gr.pc ≠ Pc.exited) (x : Chan) (hx : x ∈ alts gr.pc)
    (hr : recvReady s x = true) : ∃ c ∈ chs, recvReady s c = true := by
  have hG := hinv.gor g gr hg
  rcases hG.pc_ok hs with hpc | hpc
  · have hint : ∀ i, x = some (n + i) → ∃ c ∈ chs, recvReady s c = true := by
      intro i hi
      subst hi
      exact hinv.sound (n + i) (by omega) hr
    rcases expectedPc_alts _ _ _ hpc x hx with h1 | h1 | h1
    · rw [hG.channels_eq] at h1
      rcases chanAt_mem n chs g x h1 with h2 | ⟨i, h2⟩
      · exact ⟨x, h2, hr⟩
      · exact hint i h2
    · exact hint g h1
    · exact hint (g + 1) h1
  · exact absurd hpc he

theorem or_inv_fire {n : Nat} {chs : List Chan} {s : State} (hinv : Inv n chs s)
    (id : Nat) (hid : id < n) :
    Inv n chs { s with closed := s.closed.set id true } := by
  refine ⟨by simpa using hinv.heap, hinv.nonempty, ?_, ?_⟩
  · intro j g hj
    exact (hinv.gor j g hj).transfer_same rfl (getD_set_ne _ _ _ (by omega))
  · intro id' hid' hc
    have hc' : s.closed.getD id' false = true := by
      rw [← getD_set_ne s.closed id id' (by omega)]; exact hc
    obtain ⟨c, hcm, hcr⟩ := hinv.sound id' hid' hc'
    refine ⟨c, hcm, ?_⟩
    cases c with
    | none => simp [recvReady] at hcr
    | some k => exact getD_set_mono _ _ _ hcr

end OrChannel

namespace OrChannel

theorem or_inv_start2 {n : Nat} {chs : List Chan} {s : State} (hinv : Inv n chs s)
    (g : Nat) (gr : Goroutine) (hg : s.gs[g]? = some gr) (hpc : gr.pc = Pc.start)
    (a b : Chan) (hch : gr.channels = [a, b]) :
    Inv n chs (setPc s g gr (Pc.wait2 a b)) := by
  have hG := hinv.gor g gr hg
  have hlt : g < s.gs.length := (List.getElem?_eq_some.mp hg).1
  have hlast := hG.start_last hpc
  refine ⟨by simpa [setPc] using hinv.heap, by simpa [setPc] using hinv.nonempty, ?_, ?_⟩
  · intro j g' hj
    simp only [setPc, List.getElem?_set] at hj
    by_cases hgj : g = j
    · subst hgj
      simp only [if_true, hlt, Option.some.injEq] at hj
      subst hj
      refine ⟨hG.orDone_eq, hG.channels_eq, hG.two_le, (fun hp => by cases hp),
        fun _ => Or.inl (by simp [hch, expectedPc]), fun _ => ?_, ?_⟩
      · simp only [hch, setPc, List.length_set]
        constructor
        · intro h4; simp at h4
        · intro h4; omega
      · simp only [setPc]
        constructor
        · intro hp; cases hp
        · intro hc
          have := hG.exited_iff.mpr hc
          rw [hpc] at this; cases this
    · simp only [hgj, if_false] at hj
      exact (hinv.gor j g' hj).transfer_same (by simp [setPc]) rfl
  · intro id hid hc
    obtain ⟨c, hcm, hcr⟩ := hinv.sound id hid hc
    exact ⟨c, hcm, (recvReady_congr s _ rfl _).trans hcr⟩

theorem or_inv_start3 {n : Nat} {chs : List Chan} {s : State} (hinv : Inv n chs s)
    (g : Nat) (gr : Goroutine) (hg : s.gs[g]? = some gr) (hpc : gr.pc = Pc.start)
    (a b c : Chan) (hch : gr.channels = [a, b, c]) :
    Inv n chs (setPc s g gr (Pc.wait4 a b c (some gr.orDone))) := by
  have hG := hinv.gor g gr hg
  have hlt : g < s.gs.length := (List.getElem?_eq_some.mp hg).1
  have hlast := hG.start_last hpc
  refine ⟨by simpa [setPc] using hinv.heap, by simpa [setPc] using hinv.nonempty, ?_, ?_⟩
  · intro j g' hj
    simp only [setPc, List.getElem?_set] at hj
    by_cases hgj : g = j
    · subst hgj
      simp only [if_true, hlt, Option.some.injEq] at hj
      subst hj
      refine ⟨hG.orDone_eq, hG.channels_eq, hG.two_le, (fun hp => by cases hp),
        fun _ => Or.inl (by simp [hch, expectedPc, hG.orDone_eq]), fun _ => ?_, ?_⟩
      · simp only [hch, setPc, List.length_set]
        constructor
        · intro h4; simp at h4
        · intro h4; omega
      · simp only [setPc]
        constructor
        · intro hp; cases hp
        · intro hc
          have := hG.exited_iff.mpr hc
          rw [hpc] at this; cases this
    · simp only [hgj, if_false] at hj
      exact (hinv.gor j g' hj).transfer_same (by simp [setPc]) rfl
  · intro id hid hc
    obtain ⟨c', hcm, hcr⟩ := hinv.sound id hid hc
    exact ⟨c', hcm, (recvReady_congr s _ rfl _).trans hcr⟩

theorem or_inv_start4 {n : Nat} {chs : List Chan} {s : State} (hinv : Inv n chs s)
    (g : Nat) (gr : Goroutine) (hg : s.gs[g]? = some gr) (hpc : gr.pc = Pc.start)
    (a b c d : Chan) (rest : List Chan) (hch : gr.channels = a :: b :: c :: d :: rest) :
    Inv n chs (setPc
      ⟨s.closed ++ [false],
        s.gs ++ [⟨(d :: rest) ++ [some gr.orDone], s.closed.length, Pc.start⟩]⟩
      g gr (Pc.wait4 a b c (some s.closed.length))) := by
  have hG := hinv.gor g gr hg
  have hlt : g < s.gs.length := (List.getElem?_eq_some.mp hg).1
  have hlast := hG.start_last hpc
  have hheap := hinv.heap
  refine ⟨by simp [setPc]; omega, by simp [setPc], ?_, ?_⟩
  · intro j g' hj
    simp only [setPc, List.getElem?_set, List.length_append, List.length_singleton] at hj
    by_cases hgj : g = j
    · subst hgj
      have hlt' : g < s.gs.length + 1 := by omega
      simp only [if_true, hlt', Option.some.injEq] at hj
      subst hj
      refine ⟨hG.orDone_eq, hG.channels_eq, hG.two_le, (fun hp => by cases hp),
        fun _ => Or.inl ?_, fun _ => ?_, ?_⟩
      · simp only [hch, expectedPc, hheap]
        have : n + g + 1 = n + s.gs.length := by omega
        rw [this]
      · simp only [hch, setPc, List.length_set, List.length_append, List.length_singleton,
          List.length_cons]
        constructor
        · intro _; omega
        · intro _; omega
      · simp only [setPc, getD_append_false]
        constructor
        · intro hp; cases hp
        · intro hc
          have := hG.exited_iff.mpr hc
          rw [hpc] at this; cases this
    · simp only [hgj, if_false] at hj
      by_cases hjl : j < s.gs.length
      · rw [List.getElem?_append_left hjl] at hj
        have hGj := hinv.gor j g' hj
        have hns : g'.pc ≠ Pc.start := by
          intro hp
          have := hGj.start_last hp
          omega
        refine hGj.transfer_grow hns ?_ (by simp only [setPc]; exact getD_append_false _ _)
        simp only [setPc, List.length_set, List.length_append, List.length_singleton]
        constructor
        · intro _; omega
        · intro _; omega
      · have hjle : s.gs.length ≤ j := Nat.le_of_not_lt hjl
        rw [List.getElem?_append_right hjle] at hj
        have hj0 : j - s.gs.length = 0 := by
          by_contra hne
          obtain ⟨k, hk⟩ : ∃ k, j - s.gs.length = k + 1 := ⟨j - s.gs.length - 1, by omega⟩
          rw [hk] at hj
          simp at hj
        rw [hj0] at hj
        simp only [List.getElem?_cons_zero, Option.some.injEq] at hj
        subst hj
        have hjeq : j = g + 1 := by omega
        subst hjeq
        refine ⟨by simp only; omega, ?_, by simp, fun _ => by simp [setPc]; omega,
          fun hp => absurd rfl hp, fun hp => absurd rfl hp, ?_⟩
        · show (d :: rest) ++ [some gr.orDone] = chanAt n chs (g + 1)
          simp only [chanAt, ← hG.channels_eq, hch, hG.orDone_eq, List.drop_succ_cons,
            List.drop_zero]
        · simp only [setPc, getD_append_false]
          constructor
          · intro hp; cases hp
          · intro hc
            have := getD_lt_of_true _ _ hc
            omega
  · intro id hid hc
    simp only [setPc, getD_append_false] at hc
    obtain ⟨c', hcm, hcr⟩ := hinv.sound id hid hc
    refine ⟨c', hcm, ?_⟩
    cases c' with
    | none => simp [recvReady] at hcr
    | some k =>
      simp only [recvReady, setPc, getD_append_false]
      exact hcr

end OrChannel

namespace OrChannel

theorem closeChan_exit {n : Nat} {chs : List Chan} {s : State} (hinv : Inv n chs s)
    (g : Nat) (gr : Goroutine) (hg : s.gs[g]? = some gr) (he : gr.pc ≠ Pc.exited) :
    closeChan (setPc s g gr Pc.exited) gr.orDone =
      some ⟨s.closed.set (n + g) true, s.gs.set g { gr with pc := Pc.exited }⟩ := by
  have hG := hinv.gor g gr hg
  have hcl : s.closed.getD (n + g) false = false := by
    cases hc : s.closed.getD (n + g) false with
    | false => rfl
    | true => exact absurd (hG.exited_iff.mpr hc) he
  simp only [closeChan, setPc, hG.orDone_eq, hcl]
  rfl

theorem or_inv_exit {n : Nat} {chs : List Chan} {s : State} (hinv : Inv n chs s)
    (g : Nat) (gr : Goroutine) (hg : s.gs[g]? = some gr) (hs : gr.pc ≠ Pc.start)
    (he : gr.pc ≠ Pc.exited) (hr : ∃ x ∈ alts gr.pc, recvReady s x = true) :
    Inv n chs ⟨s.closed.set (n + g) true, s.gs.set g { gr with pc := Pc.exited }⟩ := by
  have hG := hinv.gor g gr hg
  have hlt : g < s.gs.length := (List.getElem?_eq_some.mp hg).1
  have hheap := hinv.heap
  obtain ⟨x, hx, hxr⟩ := hr
  obtain ⟨c0, hc0m, hc0r⟩ := alts_sound hinv g gr hg hs he x hx hxr
  have hmono : ∀ c : Chan, recvReady s c = true →
      recvReady ⟨s.closed.set (n + g) true, s.gs.set g { gr with pc := Pc.exited }⟩ c
        = true := by
    intro c hc
    cases c with
    | none => simp [recvReady] at hc
    | some k => exact getD_set_mono _ _ _ hc
  refine ⟨by simp; omega, by simp; omega, ?_, ?_⟩
  · intro j g' hj
    simp only [List.getElem?_set] at hj
    by_cases hgj : g = j
    · subst hgj
      simp only [if_true, hlt, Option.some.injEq] at hj
      subst hj
      refine ⟨hG.orDone_eq, hG.channels_eq, hG.two_le, (fun hp => by cases hp),
        fun _ => Or.inr rfl, fun _ => ?_, ?_⟩
      · simp only [List.length_set]
        exact hG.succ_iff hs
      · simp only [true_iff]
        exact getD_set_self _ _ (by omega)
    · simp only [hgj, if_false] at hj
      exact (hinv.gor j g' hj).transfer_same (by simp)
        (getD_set_ne _ _ _ (by omega))
  · intro id hid hc
    by_cases hidg : n + g = id
    · exact ⟨c0, hc0m, hmono c0 hc0r⟩
    · have hc' : s.closed.getD id false = true := by
        rw [← getD_set_ne s.closed (n + g) id hidg]; exact hc
      obtain ⟨c, hcm, hcr⟩ := hinv.sound id hid hc'
      exact ⟨c, hcm, hmono c hcr⟩

theorem or_inv_run {n : Nat} {chs : List Chan} {s s' : State} (hinv : Inv n chs s)
    (g : Nat) (h : stepGoroutine s g = some s') : Inv n chs s' := by
  obtain ⟨gr, hg, hcase⟩ := stepGoroutine_cases s s' g h
  rcases hcase with ⟨hpc, a, b, hch, rfl⟩ | ⟨hpc, a, b, c, rest, hch, rfl⟩ |
    ⟨hs, he, hr, hcl⟩
  · exact or_inv_start2 hinv g gr hg hpc a b hch
  · cases rest with
    | nil =>
      rw [or_snoc_nil]
      exact or_inv_start3 hinv g gr hg hpc a b c hch
    | cons d rest =>
      rw [or_snoc_cons]
      exact or_inv_start4 hinv g gr hg hpc a b c d rest hch
  · rw [closeChan_exit hinv g gr hg he] at hcl
    cases hcl
    exact or_inv_exit hinv g gr hg hs he hr

theorem or_inv_step {n : Nat} {chs : List Chan} {s s' : State} (hinv : Inv n chs s)
    (a : Action) (h : step n a s = some s') : Inv n chs s' := by
  cases a with
  | fire id =>
    simp only [step] at h
    by_cases hid : id < n
    · simp only [hid, if_true, Option.some.injEq] at h
      subst h
      exact or_inv_fire hinv id hid
    · simp [hid] at h
  | run g => exact or_inv_run hinv g h

theorem or_inv_exec {n : Nat} {chs : List Chan} (acts : List Action) :
    ∀ {s s' : State}, Inv n chs s → exec n acts s = some s' → Inv n chs s' := by
  induction acts with
  | nil => intro s s' hinv h; simp only [exec, Option.some.injEq] at h; subst h; exact hinv
  | cons a rest ih =>
    intro s s' hinv h
    simp only [exec] at h
    cases hst : step n a s with
    | none => simp [hst] at h
    | some s1 =>
      simp only [hst] at h
      exact ih (or_inv_step hinv a hst) h

end OrChannel

namespace OrChannel

theorem quiescent_iff (s : State) :
    quiescent s = true ↔ ∀ g, g < s.gs.length → stepGoroutine s g = none := by
  simp [quiescent, List.all_eq_true, Option.isNone_iff_eq_none]

theorem start_enabled {n : Nat} {chs : List Chan} {s : State} (hinv : Inv n chs s)
    (g : Nat) (gr : Goroutine) (hg : s.gs[g]? = some gr) (hpc : gr.pc = Pc.start) :
    ∃ s', stepGoroutine s g = some s' := by
  have h2 := (hinv.gor g gr hg).two_le
  unfold stepGoroutine
  simp only [hg, hpc]
  match hch : gr.channels, h2 with
  | [a, b], _ => exact ⟨_, rfl⟩
  | a :: b :: c :: rest, _ => exact ⟨_, rfl⟩

theorem wait_enabled {n : Nat} {chs : List Chan} {s : State} (hinv : Inv n chs s)
    (g : Nat) (gr : Goroutine) (hg : s.gs[g]? = some gr)
    (hr : ∃ x ∈ alts gr.pc, recvReady s x = true) :
    ∃ s', stepGoroutine s g = some s' := by
  obtain ⟨x, hx, hxr⟩ := hr
  unfold stepGoroutine
  simp only [hg]
  cases hpc : gr.pc with
  | start => simp [hpc, alts] at hx
  | exited => simp [hpc, alts] at hx
  | wait2 a b =>
    have he : gr.pc ≠ Pc.exited := by rw [hpc]; simp
    simp only [hpc, alts, List.mem_cons, List.mem_singleton, List.not_mem_nil, or_false] at hx
    have hor : (recvReady s a || recvReady s b) = true := by
      rcases hx with rfl | rfl <;> simp [hxr]
    simp only [hor, if_true]
    exact ⟨_, closeChan_exit hinv g gr hg he⟩
  | wait4 a b c r =>
    have he : gr.pc ≠ Pc.exited := by rw [hpc]; simp
    simp only [hpc, alts, List.mem_cons, List.mem_singleton, List.not_mem_nil, or_false] at hx
    have hor : (recvReady s a || recvReady s b || recvReady s c || recvReady s r) = true := by
      rcases hx with rfl | rfl | rfl | rfl <;> simp [hxr]
    simp only [hor, if_true]
    exact ⟨_, closeChan_exit hinv g gr hg he⟩

/-- In a quiescent state every goroutine is past `start`, and one that has not
exited has no ready case. -/
theorem quiescent_gor {n : Nat} {chs : List Chan} {s : State} (hinv : Inv n chs s)
    (hq : quiescent s = true) (g : Nat) (gr : Goroutine) (hg : s.gs[g]? = some gr) :
    gr.pc ≠ Pc.start ∧ ∀ x ∈ alts gr.pc, recvReady s x = false := by
  have hlt : g < s.gs.length := (List.getElem?_eq_some.mp hg).1
  have hnone := (quiescent_iff s).mp hq g hlt
  constructor
  · intro hpc
    obtain ⟨s', hs'⟩ := start_enabled hinv g gr hg hpc
    rw [hnone] at hs'; cases hs'
  · intro x hx
    cases hxr : recvReady s x with
    | false => rfl
    | true =>
      obtain ⟨s', hs'⟩ := wait_enabled hinv g gr hg ⟨x, hx, hxr⟩
      rw [hnone] at hs'; cases hs'

/-- In a quiescent state, a ready channel among the arguments of the `j`-th
nested call means that some goroutine has exited. -/
theorem quiescent_ready_exited {n : Nat} {chs : List Chan} {s : State} (hinv : Inv n chs s)
    (hq : quiescent s = true) (x : Chan) (hxr : recvReady s x = true) (m : Nat) :
    ∀ j, s.gs.length - j = m → j < s.gs.length → x ∈ chanAt n chs j →
      ∃ (i : Nat) (gr : Goroutine), s.gs[i]? = some gr ∧ gr.pc = Pc.exited := by
  induction m using Nat.strong_induction_on with
  | _ m ih =>
    intro j hm hj hx
    have hgj : s.gs[j]? = some s.gs[j] := List.getElem?_eq_getElem hj
    have hG := hinv.gor j _ hgj
    obtain ⟨hns, hblock⟩ := quiescent_gor hinv hq j _ hgj
    by_cases he : (s.gs[j]).pc = Pc.exited
    · exact ⟨j, _, hgj, he⟩
    · rcases hG.pc_ok hns with hpc | hpc
      · rw [← hG.channels_eq] at hx
        have hsucc := hG.succ_iff hns
        match hch : (s.gs[j]).channels, hpc, hx, hsucc with
        | [a, b], hpc, hx, _ =>
          simp only [hch, expectedPc, Option.some.injEq] at hpc
          have := hblock x (by rw [← hpc]; simpa [alts] using hx)
          rw [hxr] at this; cases this
        | [a, b, c], hpc, hx, _ =>
          simp only [hch, expectedPc, Option.some.injEq] at hpc
          have := hblock x (by
            rw [← hpc]
            simp only [alts, List.mem_cons, List.mem_singleton, List.not_mem_nil,
              or_false] at hx ⊢
            rcases hx with h | h | h
            · exact Or.inl h
            · exact Or.inr (Or.inl h)
            · exact Or.inr (Or.inr (Or.inl h)))
          rw [hxr] at this; cases this
        | a :: b :: c :: d :: rest, hpc, hx, hsucc =>
          simp only [hch, expectedPc, Option.some.injEq] at hpc
          have hj1 : j + 1 < s.gs.length := hsucc.mp (by simp)
          by_cases hx3 : x = a ∨ x = b ∨ x = c
          · have := hblock x (by
              rw [← hpc]
              simp only [alts, List.mem_cons, List.mem_singleton, List.not_mem_nil, or_false]
              rcases hx3 with h | h | h
              · exact Or.inl h
              · exact Or.inr (Or.inl h)
              · exact Or.inr (Or.inr (Or.inl h)))
            rw [hxr] at this; cases this
          · have hx' : x ∈ chanAt n chs (j + 1) := by
              simp only [chanAt, ← hG.channels_eq, hch, List.drop_succ_cons, List.drop_zero,
                List.mem_append]
              simp only [List.mem_cons] at hx
              rcases hx with h | h | h | h
              · exact absurd (Or.inl h) hx3
              · exact absurd (Or.inr (Or.inl h)) hx3
              · exact absurd (Or.inr (Or.inr h)) hx3
              · exact Or.inl (List.mem_cons.mpr h)
            exact ih (s.gs.length - (j + 1)) (by omega) (j + 1) rfl hj1 hx'
        | [], _, _, _ => have := hG.two_le; simp [hch] at this
        | [_], _, _, _ => have := hG.two_le; simp [hch] at this
      · exact absurd hpc he

/-- In a quiescent state, when some goroutine has exited the first one has. -/
theorem quiescent_exited_first {n : Nat} {chs : List Chan} {s : State} (hinv : Inv n chs s)
    (hq : quiescent s = true) (j : Nat) :
    ∀ gr, s.gs[j]? = some gr → gr.pc = Pc.exited →
      ∃ g0, s.gs[0]? = some g0 ∧ g0.pc = Pc.exited := by
  induction j with
  | zero => intro gr hg he; exact ⟨gr, hg, he⟩
  | succ j ih =>
    intro gr hg he
    have hlt : j + 1 < s.gs.length := (List.getElem?_eq_some.mp hg).1
    have hgj : s.gs[j]? = some s.gs[j] := List.getElem?_eq_getElem (by omega)
    have hG := hinv.gor j _ hgj
    obtain ⟨hns, hblock⟩ := quiescent_gor hinv hq j _ hgj
    rcases hG.pc_ok hns with hpc | hpc
    · have h4 := (hG.succ_iff hns).mpr hlt
      have hcl := (hinv.gor (j + 1) gr hg).exited_iff.mp he
      match hch : (s.gs[j]).channels, hpc, h4 with
      | a :: b :: c :: d :: rest, hpc, _ =>
        simp only [hch, expectedPc, Option.some.injEq] at hpc
        have := hblock (some (n + j + 1)) (by rw [← hpc]; simp [alts])
        simp only [recvReady] at this
        rw [show n + j + 1 = n + (j + 1) by omega, hcl] at this
        cases this
      | [], _, h4 => simp [hch] at h4
      | [_], _, h4 => simp [hch] at h4
      | [_, _], _, h4 => simp [hch] at h4
      | [_, _, _], _, h4 => simp [hch] at h4
    · exact ih _ hgj hpc

/-- Progress: in a quiescent state reached from `or(chs...)` with at least two
channels, if some constituent is ready then the returned channel is closed. -/
theorem quiescent_result {n : Nat} {chs : List Chan} {s : State} (hinv : Inv n chs s)
    (hq : quiescent s = true) (c : Chan) (hc : c ∈ chs) (hcr : recvReady s c = true) :
    recvReady s (some n) = true := by
  obtain ⟨i, gr, hg, he⟩ := quiescent_ready_exited hinv hq c hcr (s.gs.length - 0) 0 rfl
    hinv.nonempty hc
  obtain ⟨g0, hg0, he0⟩ := quiescent_exited_first hinv hq i gr hg he
  exact (hinv.gor 0 g0 hg0).exited_iff.mp he0

/-- Soundness: the returned channel is closed only if some constituent is ready. -/
theorem result_sound {n : Nat} {chs : List Chan} {s : State} (hinv : Inv n chs s)
    (hr : recvReady s (some n) = true) : ∃ c ∈ chs, recvReady s c = true :=
  hinv.sound n (Nat.le_refl n) hr

end OrChannel

namespace OrChannel

/-! ### Counting goroutines and steps -/

theorem chanAt_length_inv {n : Nat} {chs : List Chan} {s : State} (hinv : Inv n chs s)
    (j : Nat) (hj : j < s.gs.length) :
    (chanAt n chs j).length + 2 * j = chs.length := by
  apply chanAt_length
  intro i hi
  have hgi : s.gs[i]? = some s.gs[i] := List.getElem?_eq_getElem (by omega)
  have hG := hinv.gor i _ hgi
  have hns : (s.gs[i]).pc ≠ Pc.start := by
    intro hp
    have := hG.start_last hp
    omega
  have := (hG.succ_iff hns).mpr (by omega)
  rw [hG.channels_eq] at this
  omega

theorem gs_length_le {n : Nat} {chs : List Chan} {s : State} (hinv : Inv n chs s) :
    2 * s.gs.length ≤ chs.length := by
  have hne := hinv.nonempty
  have hlast : s.gs.length - 1 < s.gs.length := by omega
  have hg : s.gs[s.gs.length - 1]? = some s.gs[s.gs.length - 1] :=
    List.getElem?_eq_getElem hlast
  have hG := hinv.gor _ _ hg
  have h2 := hG.two_le
  rw [hG.channels_eq] at h2
  have := chanAt_length_inv hinv _ hlast
  omega

theorem gs_length_eq {n : Nat} {chs : List Chan} {s : State} (hinv : Inv n chs s)
    (hall : ∀ g ∈ s.gs, g.pc ≠ Pc.start) : s.gs.length = chs.length / 2 := by
  have hne := hinv.nonempty
  have hlast : s.gs.length - 1 < s.gs.length := by omega
  have hg : s.gs[s.gs.length - 1]? = some s.gs[s.gs.length - 1] :=
    List.getElem?_eq_getElem hlast
  have hG := hinv.gor _ _ hg
  have h2 := hG.two_le
  have hns := hall _ (List.getElem_mem hlast)
  have h4 := hG.succ_iff hns
  have h3 : ¬ 4 ≤ (s.gs[s.gs.length - 1]).channels.length := by
    intro h; have := h4.mp h; omega
  rw [hG.channels_eq] at h2 h3
  have := chanAt_length_inv hinv _ hlast
  omega

theorem sum_stage_le (l : List Goroutine) :
    (l.map fun g => stage g.pc).sum ≤ 2 * l.length := by
  induction l with
  | nil => simp
  | cons x t ih =>
    have : stage x.pc ≤ 2 := by cases x.pc <;> simp [stage]
    simp only [List.map_cons, List.sum_cons, List.length_cons]
    omega

theorem closeChan_gs (s s' : State) (id : Nat) (h : closeChan s id = some s') :
    s'.gs = s.gs := by
  unfold closeChan at h
  split at h
  · cases h
  · cases h; rfl

theorem stepsTaken_run (s s' : State) (g : Nat) (h : stepGoroutine s g = some s') :
    stepsTaken s' = stepsTaken s + 1 := by
  obtain ⟨gr, hg, hcase⟩ := stepGoroutine_cases s s' g h
  have hlt : g < s.gs.length := (List.getElem?_eq_some.mp hg).1
  rcases hcase with ⟨hpc, a, b, hch, rfl⟩ | ⟨hpc, a, b, c, rest, hch, rfl⟩ |
    ⟨hs, he, hr, hcl⟩
  · have := Aux.sum_map_set (fun g => stage g.pc) s.gs g gr { gr with pc := Pc.wait2 a b } hg
    have e1 : stage gr.pc = 0 := by rw [hpc]; rfl
    have e2 : stage (Pc.wait2 a b) = 1 := rfl
    dsimp only at this
    rw [e1, e2] at this
    simp only [stepsTaken, setPc]
    omega
  · cases rest with
    | nil =>
      have := Aux.sum_map_set (fun g => stage g.pc) s.gs g gr
        { gr with pc := Pc.wait4 a b c (some gr.orDone) } hg
      have e1 : stage gr.pc = 0 := by rw [hpc]; rfl
      have e2 : stage (Pc.wait4 a b c (some gr.orDone)) = 1 := rfl
      dsimp only at this
      rw [e1, e2] at this
      simp only [stepsTaken, setPc, or_snoc_nil]
      omega
    | cons d rest =>
      have hg' : (s.gs ++ [(⟨(d :: rest) ++ [some gr.orDone], s.closed.length, Pc.start⟩ :
          Goroutine)])[g]? = some gr := by
        rw [List.getElem?_append_left hlt]; exact hg
      have := Aux.sum_map_set (fun g => stage g.pc) _ g gr
        { gr with pc := Pc.wait4 a b c (some s.closed.length) } hg'
      have e1 : stage gr.pc = 0 := by rw [hpc]; rfl
      have e2 : stage (Pc.wait4 a b c (some s.closed.length)) = 1 := rfl
      have e3 : stage Pc.start = 0 := rfl
      simp only [List.map_append, List.sum_append, List.map_cons, List.map_nil,
        List.sum_cons, List.sum_nil] at this
      rw [e1, e2, e3] at this
      simp only [stepsTaken, setPc, or_snoc_cons]
      omega
  · have hgs := closeChan_gs _ _ _ hcl
    have := Aux.sum_map_set (fun g => stage g.pc) s.gs g gr { gr with pc := Pc.exited } hg
    have hst : stage gr.pc = 1 := by
      cases hp : gr.pc with
      | start => exact absurd hp hs
      | exited => exact absurd hp he
      | wait2 a b => rfl
      | wait4 a b c r => rfl
    have e2 : stage Pc.exited = 2 := rfl
    dsimp only at this
    rw [hst, e2] at this
    simp only [stepsTaken, hgs, setPc]
    omega

end OrChannel

namespace OrChannel

/-! ### All calls, with or without goroutines -/

theorem good_init (h : List Bool) (chs : List Chan) :
    Good h.length chs (or chs (callState h)).2 := by
  by_cases h2 : 2 ≤ chs.length
  · exact Or.inl ⟨h2, or_inv_init h chs h2⟩
  · refine Or.inr ⟨by omega, ?_⟩
    match chs, h2 with
    | [], _ => exact ⟨rfl, rfl⟩
    | [c], _ => exact ⟨rfl, rfl⟩
    | _ :: _ :: _, h2 => simp at h2

theorem stepGoroutine_nil (s : State) (g : Nat) (h : s.gs = []) :
    stepGoroutine s g = none := by
  simp [stepGoroutine, h]

theorem good_run {n : Nat} {chs : List Chan} {s s' : State} (hg : Good n chs s)
    (g : Nat) (h : stepGoroutine s g = some s') : Good n chs s' := by
  rcases hg with ⟨h2, hinv⟩ | ⟨_, hnil, _⟩
  · exact Or.inl ⟨h2, or_inv_run hinv g h⟩
  · rw [stepGoroutine_nil s g hnil] at h; cases h

theorem good_fire {n : Nat} {chs : List Chan} {s : State} (hg : Good n chs s)
    (id : Nat) (hid : id < n) : Good n chs { s with closed := s.closed.set id true } := by
  rcases hg with ⟨h2, hinv⟩ | ⟨h2, hnil, hlen⟩
  · exact Or.inl ⟨h2, or_inv_fire hinv id hid⟩
  · exact Or.inr ⟨h2, hnil, by simpa using hlen⟩

theorem good_fireAll {n : Nat} {chs : List Chan} (ids : List Nat) :
    ∀ {s : State}, Good n chs s → (∀ id ∈ ids, id < n) → Good n chs (fireAll ids s) := by
  induction ids with
  | nil => intro s hg _; exact hg
  | cons id rest ih =>
    intro s hg hlt
    have h1 := good_fire hg id (hlt id (List.mem_cons_self _ _))
    have h2 := ih h1 (fun x hx => hlt x (List.mem_cons_of_mem _ hx))
    simpa [fireAll] using h2

theorem good_heap {n : Nat} {chs : List Chan} {s : State} (hg : Good n chs s) :
    n ≤ s.closed.length := by
  rcases hg with ⟨_, hinv⟩ | ⟨_, _, hlen⟩
  · have := hinv.heap; omega
  · omega

theorem or_result (h : List Bool) (chs : List Chan) (h2 : 2 ≤ chs.length) :
    (or chs (callState h)).1 = some h.length := by
  rw [or_two_le chs h2]; rfl

theorem good_sound (h : List Bool) {chs : List Chan} {s : State}
    (hg : Good h.length chs s) (hr : recvReady s (or chs (callState h)).1 = true) :
    ∃ c ∈ chs, recvReady s c = true := by
  rcases hg with ⟨h2, hinv⟩ | ⟨h2, _, _⟩
  · rw [or_result h chs h2] at hr
    exact result_sound hinv hr
  · match chs, h2 with
    | [], _ => simp [or, recvReady] at hr
    | [c], _ => exact ⟨c, List.mem_singleton_self c, hr⟩
    | _ :: _ :: _, h2 => simp only [List.length_cons] at h2; omega

theorem good_progress (h : List Bool) {chs : List Chan} {s : State}
    (hg : Good h.length chs s) (hq : quiescent s = true) (c : Chan) (hc : c ∈ chs)
    (hcr : recvReady s c = true) : recvReady s (or chs (callState h)).1 = true := by
  rcases hg with ⟨h2, hinv⟩ | ⟨h2, _, _⟩
  · rw [or_result h chs h2]
    exact quiescent_result hinv hq c hc hcr
  · match chs, h2, hc with
    | [c'], _, hc =>
      have : c = c' := by simpa using hc
      subst this
      exact hcr
    | _ :: _ :: _, h2, _ => simp only [List.length_cons] at h2; omega

theorem good_steps {n : Nat} {chs : List Chan} {s : State} (hg : Good n chs s) :
    stepsTaken s ≤ chs.length := by
  rcases hg with ⟨_, hinv⟩ | ⟨_, hnil, _⟩
  · have h1 := sum_stage_le s.gs
    have h2 := gs_length_le hinv
    unfold stepsTaken
    omega
  · simp [stepsTaken, hnil]

theorem run_ext {n : Nat} {chs : List Chan} {s s' : State} (hg : Good n chs s)
    (g : Nat) (h : stepGoroutine s g = some s') (id : Nat) (hid : id < n) :
    s'.closed.getD id false = s.closed.getD id false := by
  rcases hg with ⟨_, hinv⟩ | ⟨_, hnil, _⟩
  · obtain ⟨gr, hgr, hcase⟩ := stepGoroutine_cases s s' g h
    rcases hcase with ⟨hpc, a, b, hch, rfl⟩ | ⟨hpc, a, b, c, rest, hch, rfl⟩ |
      ⟨hs, he, hr, hcl⟩
    · rfl
    · cases rest with
      | nil => rfl
      | cons d rest =>
        rw [or_snoc_cons]
        exact getD_append_false _ _
    · rw [closeChan_exit hinv g gr hgr he] at hcl
      cases hcl
      exact getD_set_ne _ _ _ (by omega)
  · rw [stepGoroutine_nil s g hnil] at h; cases h

theorem closeChan_mono (s s' : State) (k : Nat) (h : closeChan s k = some s') (id : Nat)
    (hc : s.closed.getD id false = true) : s'.closed.getD id false = true := by
  unfold closeChan at h
  split at h
  · cases h
  · cases h; exact getD_set_mono _ _ _ hc

theorem run_mono {s s' : State} (g : Nat) (h : stepGoroutine s g = some s') (c : Chan)
    (hc : recvReady s c = true) : recvReady s' c = true := by
  cases c with
  | none => simp [recvReady] at hc
  | some id =>
    simp only [recvReady] at hc ⊢
    obtain ⟨gr, hgr, hcase⟩ := stepGoroutine_cases s s' g h
    rcases hcase with ⟨hpc, a, b, hch, rfl⟩ | ⟨hpc, a, b, c, rest, hch, rfl⟩ |
      ⟨hs, he, hr, hcl⟩
    · exact hc
    · cases rest with
      | nil => exact hc
      | cons d rest =>
        rw [or_snoc_cons]
        exact (getD_append_false _ _).trans hc
    · exact closeChan_mono _ _ _ hcl id hc

theorem fireAll_getD (ids : List Nat) :
    ∀ (s : State) (id : Nat), id < s.closed.length →
      ((fireAll ids s).closed.getD id false = true ↔
        (s.closed.getD id false = true ∨ id ∈ ids)) := by
  induction ids with
  | nil => intro s id _; simp [fireAll]
  | cons x rest ih =>
    intro s id hid
    have h1 := ih { s with closed := s.closed.set x true } id (by simpa using hid)
    have h2 : (fireAll (x :: rest) s) = fireAll rest { s with closed := s.closed.set x true } := by
      simp [fireAll]
    rw [h2, h1]
    by_cases hx : x = id
    · subst hx
      have := getD_set_self s.closed x hid
      rw [this]
      simp
    · simp only [getD_set_ne _ _ _ hx, List.mem_cons]
      constructor
      · rintro (h | h)
        · exact Or.inl h
        · exact Or.inr (Or.inr h)
      · rintro (h | h | h)
        · exact Or.inl h
        · exact absurd h.symm hx
        · exact Or.inr h

theorem fireAll_mono (ids : List Nat) (s : State) (c : Chan) (hc : recvReady s c = true) :
    recvReady (fireAll ids s) c = true := by
  cases c with
  | none => simp [recvReady] at hc
  | some id =>
    simp only [recvReady] at hc ⊢
    have hlt := getD_lt_of_true _ _ hc
    exact (fireAll_getD ids s id hlt).mpr (Or.inl hc)

theorem mem_due (times : List (Option Nat)) (t id : Nat) :
    id ∈ due times t ↔ id < times.length ∧ times.getD id none = some t := by
  simp [due]

theorem stepsTaken_fireAll (ids : List Nat) (s : State) :
    stepsTaken (fireAll ids s) = stepsTaken s := rfl

end OrChannel

namespace OrChannel

/-! ### Logical time -/

theorem or_closed_init (n : Nat) (chs : List Chan) (id : Nat) :
    (or chs (callState (List.replicate n false))).2.closed.getD id false = false := by
  have hrep : (List.replicate n false).getD id false = false := by
    simp only [List.getD_eq_getElem?_getD, List.getElem?_replicate]
    split <;> rfl
  match chs with
  | [] => exact hrep
  | [c] => exact hrep
  | a :: b :: rest =>
    rw [or_two_le (a :: b :: rest) (by simp)]
    exact (getD_append_false _ _).trans hrep

theorem good_sound_times (times : List (Option Nat)) {chs : List Chan} {s : State}
    (hg : Good times.length chs s)
    (hr : recvReady s (or chs (callState (List.replicate times.length false))).1 = true) :
    ∃ c ∈ chs, recvReady s c = true := by
  have hlen : (List.replicate times.length false).length = times.length :=
    List.length_replicate _ _
  exact good_sound (List.replicate times.length false) (by rw [hlen]; exact hg) hr

theorem good_progress_times (times : List (Option Nat)) {chs : List Chan} {s : State}
    (hg : Good times.length chs s) (hq : quiescent s = true) (c : Chan) (hc : c ∈ chs)
    (hcr : recvReady s c = true) :
    recvReady s (or chs (callState (List.replicate times.length false))).1 = true := by
  have hlen : (List.replicate times.length false).length = times.length :=
    List.length_replicate _ _
  exact good_progress (List.replicate times.length false) (by rw [hlen]; exact hg) hq c hc hcr

theorem tinv_init (times : List (Option Nat)) (chs : List Chan) :
    TInv times chs (or chs (callState (List.replicate times.length false))).1
      (tinit times chs) := by
  have hlen : (List.replicate times.length false).length = times.length :=
    List.length_replicate _ _
  have hg0 : Good times.length chs
      (or chs (callState (List.replicate times.length false))).2 := by
    have := good_init (List.replicate times.length false) chs
    rwa [hlen] at this
  refine ⟨?_, ?_, ?_⟩
  · exact good_fireAll _ hg0 (fun id hid => ((mem_due times 0 id).mp hid).1)
  · intro id hid
    have hheap := good_heap hg0
    simp only [tinit]
    rw [fireAll_getD _ _ id (by omega), or_closed_init, mem_due]
    constructor
    · rintro (h | ⟨_, h⟩)
      · cases h
      · exact ⟨0, Nat.le_refl 0, h⟩
    · rintro ⟨t, ht, h⟩
      have : t = 0 := by omega
      subst this
      exact Or.inr ⟨hid, h⟩
  · intro id t _ _ ht
    simp only [tinit] at ht
    omega

theorem tinv_step (times : List (Option Nat)) (chs : List Chan)
    (hwf : ∀ id, some id ∈ chs → id < times.length) (a : TAction) (ts ts' : Nat × State)
    (hinv : TInv times chs (or chs (callState (List.replicate times.length false))).1 ts)
    (h : tstep times a ts = some ts') :
    TInv times chs (or chs (callState (List.replicate times.length false))).1 ts' := by
  cases a with
  | run g =>
    simp only [tstep] at h
    cases hst : stepGoroutine ts.2 g with
    | none => simp [hst] at h
    | some s' =>
      simp only [hst, Option.some.injEq] at h
      subst h
      refine ⟨good_run hinv.good g hst, ?_, ?_⟩
      · intro id hid
        simp only
        rw [run_ext hinv.good g hst id hid]
        exact hinv.ext id hid
      · intro id t hm ht hlt
        exact run_mono g hst _ (hinv.past id t hm ht hlt)
  | tick =>
    simp only [tstep] at h
    by_cases hq : quiescent ts.2 = true
    · simp only [hq, if_true, Option.some.injEq] at h
      subst h
      have hheap := good_heap hinv.good
      refine ⟨good_fireAll _ hinv.good (fun id hid => ((mem_due times _ id).mp hid).1),
        ?_, ?_⟩
      · intro id hid
        simp only
        rw [fireAll_getD _ _ id (by omega), hinv.ext id hid, mem_due]
        constructor
        · rintro (⟨t, ht, h⟩ | ⟨_, h⟩)
          · exact ⟨t, by omega, h⟩
          · exact ⟨ts.1 + 1, Nat.le_refl _, h⟩
        · rintro ⟨t, ht, h⟩
          by_cases hle : t ≤ ts.1
          · exact Or.inl ⟨t, hle, h⟩
          · have : t = ts.1 + 1 := by omega
            subst this
            exact Or.inr ⟨hid, h⟩
      · intro id t hm ht hlt
        simp only at hlt
        have hid := hwf id hm
        have hcl : ts.2.closed.getD id false = true :=
          (hinv.ext id hid).mpr ⟨t, by omega, ht⟩
        have hres := good_progress_times times hinv.good hq (some id) hm hcl
        exact fireAll_mono _ _ _ hres
    · simp [hq] at h

theorem tinv_texec (times : List (Option Nat)) (chs : List Chan)
    (hwf : ∀ id, some id ∈ chs → id < times.length) (sched : List TAction) :
    ∀ (ts ts' : Nat × State),
      TInv times chs (or chs (callState (List.replicate times.length false))).1 ts →
      texec times sched ts = some ts' →
      TInv times chs (or chs (callState (List.replicate times.length false))).1 ts' ∧
        stepsTaken ts'.2 = stepsTaken ts.2 + countTRuns sched := by
  induction sched with
  | nil =>
    intro ts ts' hinv h
    simp only [texec, Option.some.injEq] at h
    subst h
    exact ⟨hinv, rfl⟩
  | cons a rest ih =>
    intro ts ts' hinv h
    simp only [texec] at h
    cases hst : tstep times a ts with
    | none => simp [hst] at h
    | some ts1 =>
      simp only [hst] at h
      obtain ⟨h1, h2⟩ := ih ts1 ts' (tinv_step times chs hwf a ts ts1 hinv hst) h
      refine ⟨h1, ?_⟩
      cases a with
      | run g =>
        simp only [tstep] at hst
        cases hs : stepGoroutine ts.2 g with
        | none => simp [hs] at hst
        | some s1 =>
          simp only [hs, Option.some.injEq] at hst
          subst hst
          have := stepsTaken_run ts.2 s1 g hs
          simp only [countTRuns]
          simp only at h2
          omega
      | tick =>
        simp only [tstep] at hst
        split at hst
        · cases hst
          simp only [countTRuns]
          simp only [stepsTaken_fireAll] at h2
          exact h2
        · cases hst

theorem stepsTaken_tinit (times : List (Option Nat)) (chs : List Chan) :
    stepsTaken (tinit times chs).2 = 0 := by
  simp only [tinit, stepsTaken_fireAll]
  match chs with
  | [] => rfl
  | [c] => rfl
  | a :: b :: rest => rfl

end OrChannel

namespace OrChannel

/-- C6: `or` applied to the one-element list `[c]` returns `c` itself and leaves
the state unchanged (no channel made, no goroutine spawned), so a receive from
the result is ready exactly when a receive from `c` is. -/
theorem or_single_returns_argument (c : Chan) (s : State) :
    or [c] s = (c, s) ∧ (or [c] s).2.gs = s.gs ∧ (or [c] s).2.closed = s.closed ∧
      ∀ s' : State, recvReady s' (or [c] s).1 = recvReady s' c :=
  ⟨rfl, rfl, rfl, fun _ => rfl⟩

/-- C7: `or` applied to no channel returns the nil channel, on which a receive
is never ready, and leaves the state unchanged (no channel made, no goroutine
spawned). -/
theorem or_empty_returns_nil (s : State) :
    or [] s = (none, s) ∧ (or [] s).2.gs = s.gs ∧ (or [] s).2.closed = s.closed ∧
      ∀ s' : State, recvReady s' (or [] s).1 = false :=
  ⟨rfl, rfl, rfl, fun _ => rfl⟩

/-- C2: `or` over constituent signals with logical firing times. In every state
reached at logical time `now`, under every schedule of the goroutines: the
returned signal has fired only if a constituent has fired by `now`; it has
fired once the instant of a constituent firing is over, and already within
that instant once no goroutine can step; and the goroutines take at most
`len(channels)` steps in total, so every instant ends. -/
theorem or_fires_at_earliest (times : List (Option Nat)) (channels : List Chan)
    (hwf : ∀ id, some id ∈ channels → id < times.length)
    (sched : List TAction) (now : Nat) (s : State)
    (hrun : texec times sched (tinit times channels) = some (now, s)) :
    (recvReady s (or channels (callState (List.replicate times.length false))).1 = true →
        ∃ id t, some id ∈ channels ∧ times.getD id none = some t ∧ t ≤ now) ∧
    ((∃ id t, some id ∈ channels ∧ times.getD id none = some t ∧ t < now) →
        recvReady s (or channels (callState (List.replicate times.length false))).1 = true) ∧
    (quiescent s = true →
      (∃ id t, some id ∈ channels ∧ times.getD id none = some t ∧ t ≤ now) →
        recvReady s (or channels (callState (List.replicate times.length false))).1 = true) ∧
    countTRuns sched ≤ channels.length := by
  obtain ⟨hinv, hsteps⟩ := tinv_texec times channels hwf sched _ _
    (tinv_init times channels) hrun
  refine ⟨?_, ?_, ?_, ?_⟩
  · intro hr
    obtain ⟨c, hc, hcr⟩ := good_sound_times times hinv.good hr
    cases c with
    | none => simp [recvReady] at hcr
    | some id =>
      obtain ⟨t, ht, htime⟩ := (hinv.ext id (hwf id hc)).mp hcr
      exact ⟨id, t, hc, htime, ht⟩
  · rintro ⟨id, t, hc, htime, ht⟩
    exact hinv.past id t hc htime ht
  · rintro hq ⟨id, t, hc, htime, ht⟩
    have hcl : s.closed.getD id false = true := (hinv.ext id (hwf id hc)).mpr ⟨t, ht, htime⟩
    exact good_progress_times times hinv.good hq (some id) hc hcl
  · have h1 := good_steps hinv.good
    rw [stepsTaken_tinit] at hsteps
    simp only at h1 hsteps
    omega

/-- Witness of `or_fires_at_earliest`: the signals of `main` firing after 3600s,
60s, 1s and 60s. At time 0, with both goroutines blocked in their `select`, the
result has not fired; after the clock reached 1s and both goroutines stepped
again, it has. -/
theorem or_fires_at_earliest_witness :
    texec mainTimes [TAction.run 0, TAction.run 1] (tinit mainTimes mainChannels) =
      some (0, ⟨[false, false, false, false, false, false],
        [⟨mainChannels, 4, Pc.wait4 (some 0) (some 1) (some 2) (some 5)⟩,
          ⟨[some 3, some 4], 5, Pc.wait2 (some 3) (some 4)⟩]⟩) ∧
    recvReady ⟨[false, false, false, false, false, false],
        [⟨mainChannels, 4, Pc.wait4 (some 0) (some 1) (some 2) (some 5)⟩,
          ⟨[some 3, some 4], 5, Pc.wait2 (some 3) (some 4)⟩]⟩
      (or mainChannels (callState (List.replicate mainTimes.length false))).1 = false ∧
    recvReady ⟨[false, false, true, false, true, true],
        [⟨mainChannels, 4, Pc.exited⟩, ⟨[some 3, some 4], 5, Pc.exited⟩]⟩
      (or mainChannels (callState (List.replicate mainTimes.length false))).1 = true ∧
    ((recvReady ⟨[false, false, true, false, true, true],
        [⟨mainChannels, 4, Pc.exited⟩, ⟨[some 3, some 4], 5, Pc.exited⟩]⟩
      (or mainChannels (callState (List.replicate mainTimes.length false))).1 = true →
        ∃ id t, some id ∈ mainChannels ∧ mainTimes.getD id none = some t ∧ t ≤ 1) ∧
    ((∃ id t, some id ∈ mainChannels ∧ mainTimes.getD id none = some t ∧ t < 1) →
        recvReady ⟨[false, false, true, false, true, true],
            [⟨mainChannels, 4, Pc.exited⟩, ⟨[some 3, some 4], 5, Pc.exited⟩]⟩
          (or mainChannels (callState (List.replicate mainTimes.length false))).1 = true) ∧
    (quiescent ⟨[false, false, true, false, true, true],
          [⟨mainChannels, 4, Pc.exited⟩, ⟨[some 3, some 4], 5, Pc.exited⟩]⟩ = true →
      (∃ id t, some id ∈ mainChannels ∧ mainTimes.getD id none = some t ∧ t ≤ 1) →
        recvReady ⟨[false, false, true, false, true, true],
            [⟨mainChannels, 4, Pc.exited⟩, ⟨[some 3, some 4], 5, Pc.exited⟩]⟩
          (or mainChannels (callState (List.replicate mainTimes.length false))).1 = true) ∧
    countTRuns [TAction.run 0, TAction.run 1, TAction.tick, TAction.run 0, TAction.run 1]
      ≤ mainChannels.length) :=
  ⟨by decide, by decide, by decide,
    or_fires_at_earliest mainTimes mainChannels
      (by
        intro id h
        simp only [mainChannels, List.mem_cons, Option.some.injEq, List.mem_singleton,
          List.not_mem_nil, or_false] at h
        simp only [mainTimes, List.length_cons, List.length_nil]
        omega)
      [TAction.run 0, TAction.run 1, TAction.tick, TAction.run 0, TAction.run 1] 1
      ⟨[false, false, true, false, true, true],
        [⟨mainChannels, 4, Pc.exited⟩, ⟨[some 3, some 4], 5, Pc.exited⟩]⟩
      (by decide)⟩

end OrChannel

namespace OrChannel

theorem start_is_last {n : Nat} {chs : List Chan} {s : State} (hinv : Inv n chs s)
    (j : Nat) (g : Goroutine) (hj : s.gs[j]? = some g) (hlt : j + 1 < s.gs.length) :
    g.pc ≠ Pc.start := by
  intro hp
  have := (hinv.gor j g hj).start_last hp
  omega

/-- From every reachable state the goroutines not yet in their `select` can be
run until every goroutine is. -/
theorem can_start_all {n : Nat} {chs : List Chan} (k : Nat) :
    ∀ (s : State), Inv n chs s → chs.length - 2 * s.gs.length < k →
      ∃ acts s', exec n acts s = some s' ∧ ∀ g ∈ s'.gs, g.pc ≠ Pc.start := by
  induction k with
  | zero => intro s _ h; omega
  | succ k ih =>
    intro s hinv hk
    have hne := hinv.nonempty
    have hlast : s.gs.length - 1 < s.gs.length := by omega
    have hg : s.gs[s.gs.length - 1]? = some s.gs[s.gs.length - 1] :=
      List.getElem?_eq_getElem hlast
    by_cases hp : (s.gs[s.gs.length - 1]).pc = Pc.start
    · obtain ⟨s1, hs1⟩ := start_enabled hinv _ _ hg hp
      have hinv1 := or_inv_run hinv _ hs1
      have hle1 := gs_length_le hinv1
      obtain ⟨gr, hgr, hcase⟩ := stepGoroutine_cases s s1 _ hs1
      have hsame : s1.gs.length = s.gs.length →
          ∃ acts s', exec n acts s = some s' ∧ ∀ g ∈ s'.gs, g.pc ≠ Pc.start := by
        intro hlen
        refine ⟨[Action.run (s.gs.length - 1)], s1, by simp [exec, step, hs1], ?_⟩
        intro g hgm
        obtain ⟨j, hj⟩ := List.mem_iff_getElem?.mp hgm
        have hjl : j < s1.gs.length := (List.getElem?_eq_some.mp hj).1
        by_cases hjj : j + 1 < s1.gs.length
        · exact start_is_last hinv1 j g hj hjj
        · have hjeq : j = s.gs.length - 1 := by omega
          subst hjeq
          intro hstart
          have h0 : stage g.pc = 0 := by rw [hstart]; rfl
          have hsum := stepsTaken_run s s1 _ hs1
          have hset := Aux.sum_map_set (fun g => stage g.pc) s1.gs _ g
            s.gs[s.gs.length - 1] hj
          have hrest : ∀ i, i ≠ s.gs.length - 1 → s1.gs[i]? = s.gs[i]? := by
            intro i hi
            rcases hcase with ⟨_, a, b, _, rfl⟩ | ⟨_, a, b, c, rest, _, rfl⟩ |
              ⟨_, he, _, hcl⟩
            · simp only [setPc]
              rw [List.getElem?_set_ne (Ne.symm hi)]
            · cases rest with
              | nil =>
                simp only [setPc, or_snoc_nil]
                rw [List.getElem?_set_ne (Ne.symm hi)]
              | cons d rest =>
                rw [or_snoc_cons] at hlen
                simp [setPc] at hlen
            · rw [closeChan_gs _ _ _ hcl]
              simp only [setPc]
              rw [List.getElem?_set_ne (Ne.symm hi)]
          have hext : s1.gs.set (s.gs.length - 1) s.gs[s.gs.length - 1] = s.gs := by
            apply List.ext_getElem?
            intro i
            rw [List.getElem?_set]
            by_cases hi : s.gs.length - 1 = i
            · subst hi
              simp only [if_true, hjl, hg]
            · simp only [hi, if_false]
              exact hrest i (Ne.symm hi)
          rw [hext] at hset
          dsimp only at hset
          rw [h0, hp] at hset
          simp only [stepsTaken] at hsum
          have e0 : stage Pc.start = 0 := rfl
          omega
      by_cases hlen : s1.gs.length = s.gs.length
      · exact hsame hlen
      · have hgrow : s1.gs.length = s.gs.length + 1 := by
          rcases hcase with ⟨_, a, b, _, rfl⟩ | ⟨_, a, b, c, rest, _, rfl⟩ |
            ⟨_, he, _, hcl⟩
          · exact absurd (by simp [setPc]) hlen
          · cases rest with
            | nil => exact absurd (by simp [setPc, or]) hlen
            | cons d rest => rw [or_snoc_cons]; simp [setPc]
          · exact absurd (by rw [closeChan_gs _ _ _ hcl]; simp [setPc]) hlen
        obtain ⟨acts, s', hex, hall⟩ := ih s1 hinv1 (by omega)
        exact ⟨Action.run (s.gs.length - 1) :: acts, s', by simp [exec, step, hs1, hex], hall⟩
    · refine ⟨[], s, rfl, ?_⟩
      intro g hgm
      obtain ⟨j, hj⟩ := List.mem_iff_getElem?.mp hgm
      have hjl : j < s.gs.length := (List.getElem?_eq_some.mp hj).1
      by_cases hjj : j + 1 < s.gs.length
      · exact start_is_last hinv j g hj hjj
      · have hjeq : j = s.gs.length - 1 := by omega
        subst hjeq
        rw [hg] at hj
        cases hj
        exact hp

/-- C8 (as stated) fails: for `N = 4` the run in which both goroutines have
entered their `select` has two goroutines and two channels made by `or`, not
`⌈(4-2)/2⌉ = 1`. -/
theorem or_levels_counterexample :
    exec 4 [Action.run 0, Action.run 1]
        (or [some 0, some 1, some 2, some 3] (callState [false, false, false, false])).2 =
      some ⟨[false, false, false, false, false, false],
        [⟨[some 0, some 1, some 2, some 3], 4,
            Pc.wait4 (some 0) (some 1) (some 2) (some 5)⟩,
          ⟨[some 3, some 4], 5, Pc.wait2 (some 3) (some 4)⟩]⟩ ∧
    ([⟨[some 0, some 1, some 2, some 3], 4, Pc.wait4 (some 0) (some 1) (some 2) (some 5)⟩,
      ⟨[some 3, some 4], 5, Pc.wait2 (some 3) (some 4)⟩] : List Goroutine).length
        ≠ (4 - 2 + 1) / 2 ∧
    ([false, false, false, false, false, false] : List Bool).length - 4 ≠ (4 - 2 + 1) / 2 := by
  decide

/-- C8 (amended): for `N > 2` channels, in every reachable state in which every
goroutine has entered its `select`, exactly `⌊N/2⌋` goroutines exist and exactly
`⌊N/2⌋` channels were made, the `j`-th goroutine owning the `j`-th channel made;
and such a state is reachable. -/
theorem or_levels (h : List Bool) (channels : List Chan) (hN : 2 < channels.length)
    (acts : List Action) (s : State)
    (hrun : exec h.length acts (or channels (callState h)).2 = some s)
    (hall : ∀ g ∈ s.gs, g.pc ≠ Pc.start) :
    s.gs.length = channels.length / 2 ∧
    s.closed.length = h.length + channels.length / 2 ∧
    (∀ j g, s.gs[j]? = some g → g.orDone = h.length + j) ∧
    (∃ acts' s', exec h.length acts' (or channels (callState h)).2 = some s' ∧
      ∀ g ∈ s'.gs, g.pc ≠ Pc.start) := by
  have hinv0 := or_inv_init h channels (by omega)
  have hinv := or_inv_exec acts hinv0 hrun
  have hlen := gs_length_eq hinv hall
  refine ⟨hlen, ?_, fun j g hj => (hinv.gor j g hj).orDone_eq, ?_⟩
  · rw [hinv.heap, hlen]
  · exact can_start_all (channels.length + 1) _ hinv0 (by omega)

/-- Witness of `or_levels` at `N = 4`. -/
theorem or_levels_witness :
    ([⟨[some 0, some 1, some 2, some 3], 4, Pc.wait4 (some 0) (some 1) (some 2) (some 5)⟩,
      ⟨[some 3, some 4], 5, Pc.wait2 (some 3) (some 4)⟩] : List Goroutine).length
        = [some 0, some 1, some 2, some 3].length / 2 ∧
    ([false, false, false, false, false, false] : List Bool).length
        = [false, false, false, false].length + [some 0, some 1, some 2, some 3].length / 2 :=
  ⟨(or_levels [false, false, false, false] [some 0, some 1, some 2, some 3] (by decide)
      [Action.run 0, Action.run 1]
      ⟨[false, false, false, false, false, false],
        [⟨[some 0, some 1, some 2, some 3], 4,
            Pc.wait4 (some 0) (some 1) (some 2) (some 5)⟩,
          ⟨[some 3, some 4], 5, Pc.wait2 (some 3) (some 4)⟩]⟩
      (by decide) (by decide)).1,
   (or_levels [false, false, false, false] [some 0, some 1, some 2, some 3] (by decide)
      [Action.run 0, Action.run 1]
      ⟨[false, false, false, false, false, false],
        [⟨[some 0, some 1, some 2, some 3], 4,
            Pc.wait4 (some 0) (some 1) (some 2) (some 5)⟩,
          ⟨[some 3, some 4], 5, Pc.wait2 (some 3) (some 4)⟩]⟩
      (by decide) (by decide)).2.1⟩

end OrChannel

namespace OrDone

theorem orDone_inv_init {T : Type} (src : Source T) : Inv src (orDone src) :=
  ⟨by simp [orDone], fun _ => rfl, rfl, by simp [orDone], fun h => by simp [orDone] at h⟩

theorem orDone_inv_step {T : Type} {src : Source T} {s s' : State T} (hinv : Inv src s)
    (a : Action) (h : step a s = some s') : Inv src s' := by
  obtain ⟨hpre, hsplit, hcl, hiff, hex⟩ := hinv
  cases a with
  | cancel =>
    simp only [step, Option.some.injEq] at h
    subst h
    exact ⟨hpre, hsplit, hcl, hiff, fun _ hd => by simp at hd⟩
  | caseDone =>
    simp only [step] at h
    cases hpc : s.pc with
    | exited => simp [hpc] at h
    | outer =>
      simp only [hpc] at h
      split at h
      · cases h
        rename_i hd
        exact ⟨hpre, fun hne => absurd rfl hne, hcl, by simp,
          fun _ hd' => by simp only at hd'; rw [hd] at hd'; cases hd'⟩
      · cases h
    | inner v =>
      simp only [hpc] at h
      split at h
      · cases h
        rename_i hd
        exact ⟨hpre, fun hne => absurd rfl hne, hcl, by simp,
          fun _ hd' => by simp only at hd'; rw [hd] at hd'; cases hd'⟩
      · cases h
  | caseRecv =>
    simp only [step] at h
    cases hpc : s.pc with
    | exited => simp [hpc] at h
    | inner v => simp [hpc] at h
    | outer =>
      have hsp := hsplit (by rw [hpc]; simp)
      simp only [hpc] at h
      cases hp : s.c.pending with
      | cons v rest =>
        simp only [hp, Option.some.injEq] at h
        subst h
        refine ⟨hpre, fun _ => ?_, hcl, ?_, fun hpe => by cases hpe⟩
        · simpa [held, hpc, hp] using hsp
        · simp only [hiff, hpc]
          constructor <;> intro hh <;> cases hh
      | nil =>
        simp only [hp] at h
        split at h
        · cases h
          rename_i hc
          refine ⟨hpre, fun hne => absurd rfl hne, hcl, by simp,
            fun _ _ => ⟨?_, by rw [← hcl]; exact hc⟩⟩
          simpa [held, hpc, hp] using hsp
        · cases h
  | caseSend =>
    simp only [step] at h
    cases hpc : s.pc with
    | exited => simp [hpc] at h
    | outer => simp [hpc] at h
    | inner v =>
      have hsp := hsplit (by rw [hpc]; simp)
      simp only [hpc, Option.some.injEq] at h
      subst h
      refine ⟨?_, fun _ => ?_, hcl, ?_, fun hpe => by cases hpe⟩
      · exact ⟨s.c.pending, by simpa [held, hpc] using hsp⟩
      · simpa [held, hpc] using hsp
      · simp only [hiff, hpc]
        constructor <;> intro hh <;> cases hh

theorem orDone_inv_exec {T : Type} {src : Source T} (acts : List Action) :
    ∀ {s s' : State T}, Inv src s → exec acts s = some s' → Inv src s' := by
  induction acts with
  | nil => intro s s' hinv h; simp only [exec, Option.some.injEq] at h; subst h; exact hinv
  | cons a rest ih =>
    intro s s' hinv h
    simp only [exec] at h
    cases hst : step a s with
    | none => simp [hst] at h
    | some s1 =>
      simp only [hst] at h
      exact ih (orDone_inv_step hinv a hst) h

end OrDone

namespace OrDone

theorem orDone_potential_step {T : Type} {s s' : State T} (a : Action) (h : step a s = some s') :
    (a = Action.cancel → potential s' = potential s) ∧
      (a ≠ Action.cancel → potential s' + 1 ≤ potential s) := by
  cases a with
  | cancel =>
    simp only [step, Option.some.injEq] at h
    subst h
    exact ⟨fun _ => rfl, fun hne => absurd rfl hne⟩
  | caseDone =>
    refine ⟨(fun hc => by cases hc), fun _ => ?_⟩
    simp only [step] at h
    cases hpc : s.pc with
    | exited => simp [hpc] at h
    | outer =>
      simp only [hpc] at h
      split at h
      · cases h; simp [potential, hpc]
      · cases h
    | inner v =>
      simp only [hpc] at h
      split at h
      · cases h; simp [potential, hpc]
      · cases h
  | caseRecv =>
    refine ⟨(fun hc => by cases hc), fun _ => ?_⟩
    simp only [step] at h
    cases hpc : s.pc with
    | exited => simp [hpc] at h
    | inner v => simp [hpc] at h
    | outer =>
      simp only [hpc] at h
      cases hp : s.c.pending with
      | cons v rest =>
        simp only [hp, Option.some.injEq] at h
        subst h
        simp only [potential, hpc, hp, List.length_cons]
        omega
      | nil =>
        simp only [hp] at h
        split at h
        · cases h; simp [potential, hpc]
        · cases h
  | caseSend =>
    refine ⟨(fun hc => by cases hc), fun _ => ?_⟩
    simp only [step] at h
    cases hpc : s.pc with
    | exited => simp [hpc] at h
    | outer => simp [hpc] at h
    | inner v =>
      simp only [hpc, Option.some.injEq] at h
      subst h
      simp only [potential, hpc]
      omega

theorem orDone_potential_exec {T : Type} (acts : List Action) :
    ∀ {s s' : State T}, exec acts s = some s' →
      countSteps acts + potential s' ≤ potential s := by
  induction acts with
  | nil => intro s s' h; simp only [exec, Option.some.injEq] at h; subst h; simp [countSteps]
  | cons a rest ih =>
    intro s s' h
    simp only [exec] at h
    cases hst : step a s with
    | none => simp [hst] at h
    | some s1 =>
      simp only [hst] at h
      have h1 := ih h
      have h2 := orDone_potential_step a hst
      cases a with
      | cancel =>
        have := h2.1 rfl
        simp only [countSteps]
        omega
      | caseDone => have := h2.2 (by simp); simp only [countSteps]; omega
      | caseRecv => have := h2.2 (by simp); simp only [countSteps]; omega
      | caseSend => have := h2.2 (by simp); simp only [countSteps]; omega

theorem orDone_exited_step {T : Type} {s s' : State T} (hp : s.pc = Pc.exited) (a : Action)
    (h : step a s = some s') : s'.out = s.out ∧ s'.pc = Pc.exited := by
  cases a with
  | cancel =>
    simp only [step, Option.some.injEq] at h
    subst h
    exact ⟨rfl, hp⟩
  | caseDone => simp [step, hp] at h
  | caseRecv => simp [step, hp] at h
  | caseSend => simp [step, hp] at h

theorem orDone_exited_exec {T : Type} (acts : List Action) :
    ∀ {s s' : State T}, s.pc = Pc.exited → exec acts s = some s' →
      s'.out = s.out ∧ s'.pc = Pc.exited := by
  induction acts with
  | nil => intro s s' hp h; simp only [exec, Option.some.injEq] at h; subst h; exact ⟨rfl, hp⟩
  | cons a rest ih =>
    intro s s' hp h
    simp only [exec] at h
    cases hst : step a s with
    | none => simp [hst] at h
    | some s1 =>
      simp only [hst] at h
      obtain ⟨h1, h2⟩ := orDone_exited_step hp a hst
      obtain ⟨h3, h4⟩ := ih h2 h
      exact ⟨h3.trans h1, h4⟩

theorem drain_exec {T : Type} (closes : Bool) (hc : closes = true) (pending : List T) :
    ∀ (out : List T),
      exec (drain pending.length) ⟨false, ⟨pending, closes⟩, Pc.outer, out, false⟩ =
        some ⟨false, ⟨[], closes⟩, Pc.exited, out ++ pending, true⟩ := by
  induction pending with
  | nil => intro out; simp [drain, exec, step, hc]
  | cons v rest ih =>
    intro out
    have := ih (out ++ [v])
    simp only [List.length_cons, drain, exec, step]
    rw [this]
    simp

/-- C3: the values `orDone` has delivered are always a prefix of the source
sequence; when the source closes after its last value, cancellation has not
fired and the goroutine can take no further step (the consumer receiving every
value offered), the output is the whole source sequence and is closed; once the
output is closed nothing more is delivered; the goroutine takes at most
`2 * len + 1` steps; and a run delivering the whole sequence exists. -/
theorem orDone_forwards_in_order {T : Type} (src : Source T) (acts : List Action) (s : State T)
    (hrun : exec acts (orDone src) = some s) :
    s.out <+: src.pending ∧
    (src.closes = true → s.done = false →
      (∀ a, a ≠ Action.cancel → step a s = none) →
        s.out = src.pending ∧ s.outClosed = true) ∧
    (s.outClosed = true → ∀ acts' s', exec acts' s = some s' → s'.out = s.out) ∧
    countSteps acts ≤ 2 * src.pending.length + 1 ∧
    (src.closes = true → ∃ acts' s', exec acts' (orDone src) = some s' ∧ s'.done = false ∧
      s'.out = src.pending ∧ s'.outClosed = true) := by
  have hinv := orDone_inv_exec acts (orDone_inv_init src) hrun
  refine ⟨hinv.prefixed, ?_, ?_, ?_, ?_⟩
  · intro hc hd hterm
    cases hpc : s.pc with
    | outer =>
      exfalso
      have h1 := hterm Action.caseRecv (by simp)
      have hcl := hinv.closes_eq
      simp only [step, hpc] at h1
      cases hp : s.c.pending with
      | cons v rest => simp [hp] at h1
      | nil => simp [hp, hcl, hc] at h1
    | inner v =>
      exfalso
      have h1 := hterm Action.caseSend (by simp)
      simp [step, hpc] at h1
    | exited =>
      exact ⟨(hinv.exited_open hpc hd).1, hinv.closed_iff.mpr hpc⟩
  · intro hoc acts' s' h
    exact (orDone_exited_exec acts' (hinv.closed_iff.mp hoc) h).1
  · have := orDone_potential_exec acts hrun
    simp only [potential, orDone] at this
    omega
  · intro hc
    refine ⟨drain src.pending.length,
      ⟨false, ⟨[], src.closes⟩, Pc.exited, [] ++ src.pending, true⟩, ?_, rfl, ?_, rfl⟩
    · exact drain_exec src.closes hc src.pending []
    · simp

/-- Witness of `orDone_forwards_in_order`: the source `[1, 2]`, closed after its last value,
forwarded to the end. -/
theorem orDone_forwards_in_order_witness :
    ([1, 2] : List Nat) <+: (⟨[1, 2], true⟩ : Source Nat).pending ∧
    ((⟨[1, 2], true⟩ : Source Nat).closes = true →
      (⟨false, ⟨[], true⟩, Pc.exited, [1, 2], true⟩ : State Nat).done = false →
      (∀ a, a ≠ Action.cancel →
        step a (⟨false, ⟨[], true⟩, Pc.exited, [1, 2], true⟩ : State Nat) = none) →
        (⟨false, ⟨[], true⟩, Pc.exited, [1, 2], true⟩ : State Nat).out
            = (⟨[1, 2], true⟩ : Source Nat).pending ∧
          (⟨false, ⟨[], true⟩, Pc.exited, [1, 2], true⟩ : State Nat).outClosed = true) :=
  ⟨(orDone_forwards_in_order ⟨[1, 2], true⟩
      [Action.caseRecv, Action.caseSend, Action.caseRecv, Action.caseSend, Action.caseRecv]
      ⟨false, ⟨[], true⟩, Pc.exited, [1, 2], true⟩ (by decide)).1,
   (orDone_forwards_in_order ⟨[1, 2], true⟩
      [Action.caseRecv, Action.caseSend, Action.caseRecv, Action.caseSend, Action.caseRecv]
      ⟨false, ⟨[], true⟩, Pc.exited, [1, 2], true⟩ (by decide)).2.1⟩

/-- C4 (as stated) fails: with cancellation fired first, the outer `select` may
still choose the receive and the inner `select` the send, both being ready: the
value 7 is delivered in a state in which `done` is already closed. -/
theorem orDone_delivers_after_cancel :
    exec [Action.cancel, Action.caseRecv] (orDone (⟨[7], true⟩ : Source Nat)) =
      some ⟨true, ⟨[], true⟩, Pc.inner 7, [], false⟩ ∧
    (⟨true, ⟨[], true⟩, Pc.inner 7, [], false⟩ : State Nat).done = true ∧
    step Action.caseSend (⟨true, ⟨[], true⟩, Pc.inner 7, [], false⟩ : State Nat) =
      some ⟨true, ⟨[], true⟩, Pc.outer, [7], false⟩ := by
  decide

/-- C4 (amended): in every state of a run of `orDone` in which cancellation has
fired and the goroutine has not returned, the cancellation case of its `select`
can be taken, and taking it ends the goroutine and closes the output without
delivering the pending value; after the goroutine has returned no value is
delivered any more. -/
theorem orDone_cancel {T : Type} (src : Source T) (acts : List Action) (s : State T)
    (hrun : exec acts (orDone src) = some s) (hd : s.done = true) :
    (s.pc ≠ Pc.exited →
      ∃ s', step Action.caseDone s = some s' ∧ s'.pc = Pc.exited ∧
        s'.outClosed = true ∧ s'.out = s.out) ∧
    (s.pc = Pc.exited → s.outClosed = true ∧
      ∀ acts' s', exec acts' s = some s' → s'.out = s.out ∧ s'.pc = Pc.exited) := by
  have hinv := orDone_inv_exec acts (orDone_inv_init src) hrun
  constructor
  · intro hne
    cases hpc : s.pc with
    | exited => exact absurd hpc hne
    | outer =>
      exact ⟨{ s with pc := Pc.exited, outClosed := true }, by simp [step, hpc, hd],
        rfl, rfl, rfl⟩
    | inner v =>
      exact ⟨{ s with pc := Pc.exited, outClosed := true }, by simp [step, hpc, hd],
        rfl, rfl, rfl⟩
  · intro hp
    exact ⟨hinv.closed_iff.mpr hp, fun acts' s' h => orDone_exited_exec acts' hp h⟩

/-- Witness of `orDone_cancel`: cancellation fired while the value 7 is held. -/
theorem orDone_cancel_witness :
    ∃ s', step Action.caseDone (⟨true, ⟨[], true⟩, Pc.inner 7, [], false⟩ : State Nat)
        = some s' ∧ s'.pc = Pc.exited ∧ s'.outClosed = true ∧
      s'.out = (⟨true, ⟨[], true⟩, Pc.inner 7, [], false⟩ : State Nat).out :=
  (orDone_cancel ⟨[7], true⟩ [Action.caseRecv, Action.cancel]
    ⟨true, ⟨[], true⟩, Pc.inner 7, [], false⟩ (by decide) (by decide)).1 (by decide)

end OrDone

namespace FanIn

theorem deliveredFrom_snoc_self {T : Type} (s s' : State T) (i : Nat) (v : T)
    (h : s'.out = s.out ++ [(i, v)]) : deliveredFrom s' i = deliveredFrom s i ++ [v] := by
  simp [deliveredFrom, h, List.filter_append]

theorem deliveredFrom_snoc_ne {T : Type} (s s' : State T) (i j : Nat) (v : T)
    (h : s'.out = s.out ++ [(i, v)]) (hj : j ≠ i) :
    deliveredFrom s' j = deliveredFrom s j := by
  have : (i == j) = false := by simpa using (Ne.symm hj)
  simp [deliveredFrom, h, List.filter_append, List.filter_cons, this]

theorem live_init_sum {T : Type} (channels : List (Source T)) :
    ((channels.map fun c => (⟨c, Pc.ranging⟩ : Worker T)).map fun w => live w.pc).sum
      = channels.length := by
  induction channels with
  | nil => rfl
  | cons c t ih =>
    have e : live (Pc.ranging : Pc T) = 1 := rfl
    simp only [List.map_cons, List.sum_cons, List.length_cons]
    rw [ih, e]
    omega

theorem fanIn_inv_init {T : Type} (channels : List (Source T)) : Inv channels (fanIn channels) := by
  refine ⟨by simp [fanIn], ?_, ?_, by simp [fanIn], by simp [fanIn]⟩
  · intro i w src hw hsrc
    simp only [fanIn, List.getElem?_map, hsrc, Option.map_some', Option.some.injEq] at hw
    subst hw
    exact ⟨by simp [deliveredFrom, fanIn], fun _ => by simp [deliveredFrom, fanIn, held],
      rfl, fun h => by cases h⟩
  · exact (live_init_sum channels).symm

/-- Worker invariants carry over to a state in which only worker `i` changed. -/
theorem winv_set {T : Type} {channels : List (Source T)} {s s' : State T}
    (hinv : Inv channels s) (i : Nat) (w' : Worker T)
    (hws : s'.workers = s.workers.set i w')
    (hother : ∀ j, j ≠ i → deliveredFrom s' j = deliveredFrom s j)
    (hdone : s'.done = false → s.done = false)
    (hi : ∀ w src, s.workers[i]? = some w → channels[i]? = some src → WInv src s i w →
      WInv src s' i w') :
    ∀ j w src, s'.workers[j]? = some w → channels[j]? = some src → WInv src s' j w := by
  intro j w src hw hsrc
  rw [hws, List.getElem?_set] at hw
  by_cases hij : i = j
  · subst hij
    by_cases hlt : i < s.workers.length
    · simp only [if_true, hlt, Option.some.injEq] at hw
      subst hw
      have hold : s.workers[i]? = some s.workers[i] := List.getElem?_eq_getElem hlt
      exact hi _ src hold hsrc (hinv.worker i _ src hold hsrc)
    · simp [hlt] at hw
  · simp only [hij, if_false] at hw
    have hW := hinv.worker j w src hw hsrc
    have hd := hother j (Ne.symm hij)
    exact ⟨by rw [hd]; exact hW.prefixed, fun hne => by rw [hd]; exact hW.split hne,
      hW.closes_eq, fun hp hdn => by rw [hd]; exact hW.exited_open hp (hdone hdn)⟩

theorem fanIn_inv_exit {T : Type} {channels : List (Source T)} {s s' : State T}
    (hinv : Inv channels s) (i : Nat) (w : Worker T) (hw : s.workers[i]? = some w)
    (hne : w.pc ≠ Pc.exited)
    (hfull : s.done = false → ∀ src, channels[i]? = some src → deliveredFrom s i = src.pending)
    (h : exitWorker s i w = some s') : Inv channels s' := by
  unfold exitWorker at h
  split at h
  · cases h
  · cases h
    rename_i hwg
    have hlive : live w.pc = 1 := by
      cases hp : w.pc with
      | exited => exact absurd hp hne
      | ranging => rfl
      | holding v => rfl
    refine ⟨by simpa using hinv.length_eq, ?_, ?_, ?_, hinv.tags⟩
    · refine winv_set hinv i { w with pc := Pc.exited } rfl (fun _ _ => rfl) (fun hd => hd) ?_
      intro w0 src hw0 hsrc hW
      rw [hw] at hw0
      cases hw0
      exact ⟨hW.prefixed, fun hn => absurd rfl hn, hW.closes_eq,
        fun _ hd => hfull hd src hsrc⟩
    · have := Aux.sum_map_set (fun w => live w.pc) s.workers i w { w with pc := Pc.exited } hw
      have e0 : live (Pc.exited : Pc T) = 0 := rfl
      dsimp only at this
      rw [hlive, e0] at this
      have hwg := hinv.wg_eq
      simp only
      omega
    · intro hc
      have := hinv.closed_wg hc
      simp only
      omega

theorem fanIn_inv_step {T : Type} {channels : List (Source T)} {s s' : State T}
    (hinv : Inv channels s) (a : Action) (h : step a s = some s') : Inv channels s' := by
  cases a with
  | cancel =>
    simp only [step, Option.some.injEq] at h
    subst h
    refine ⟨hinv.length_eq, ?_, hinv.wg_eq, hinv.closed_wg, hinv.tags⟩
    intro i w src hw hsrc
    have hW := hinv.worker i w src hw hsrc
    exact ⟨hW.prefixed, hW.split, hW.closes_eq, fun _ hd => by simp at hd⟩
  | recv i =>
    simp only [step] at h
    cases hw : s.workers[i]? with
    | none => simp [hw] at h
    | some w =>
      simp only [hw] at h
      cases hpc : w.pc with
      | holding v => simp [hpc] at h
      | exited => simp [hpc] at h
      | ranging =>
        simp only [hpc] at h
        cases hp : w.c.pending with
        | cons v rest =>
          simp only [hp, Option.some.injEq] at h
          subst h
          refine ⟨by simpa using hinv.length_eq, ?_, ?_, hinv.closed_wg, hinv.tags⟩
          · refine winv_set hinv i _ rfl (fun _ _ => rfl) (fun hd => hd) ?_
            intro w0 src hw0 hsrc hW
            rw [hw] at hw0
            cases hw0
            have hsp := hW.split (by rw [hpc]; simp)
            refine ⟨hW.prefixed, fun _ => ?_, hW.closes_eq, fun hpe => by cases hpe⟩
            simpa [held, hpc, hp, deliveredFrom] using hsp
          · have := Aux.sum_map_set (fun w => live w.pc) s.workers i w
              ⟨{ w.c with pending := rest }, Pc.holding v⟩ hw
            have e1 : live w.pc = 1 := by rw [hpc]; rfl
            have e2 : live (Pc.holding v) = 1 := rfl
            dsimp only at this
            rw [e1, e2] at this
            have hwg := hinv.wg_eq
            simp only
            omega
        | nil =>
          simp only [hp] at h
          split at h
          · refine fanIn_inv_exit hinv i w hw (by rw [hpc]; simp) ?_ h
            intro _ src hsrc
            have hsp := (hinv.worker i w src hw hsrc).split (by rw [hpc]; simp)
            simpa [held, hpc, hp] using hsp
          · cases h
  | caseDone i =>
    simp only [step] at h
    cases hw : s.workers[i]? with
    | none => simp [hw] at h
    | some w =>
      simp only [hw] at h
      cases hpc : w.pc with
      | ranging => simp [hpc] at h
      | exited => simp [hpc] at h
      | holding v =>
        simp only [hpc] at h
        split at h
        · rename_i hd
          refine fanIn_inv_exit hinv i w hw (by rw [hpc]; simp) ?_ h
          intro hd'
          rw [hd] at hd'
          cases hd'
        · cases h
  | caseSend i =>
    simp only [step] at h
    cases hw : s.workers[i]? with
    | none => simp [hw] at h
    | some w =>
      simp only [hw] at h
      cases hpc : w.pc with
      | ranging => simp [hpc] at h
      | exited => simp [hpc] at h
      | holding v =>
        simp only [hpc] at h
        split at h
        · cases h
        · cases h
          have hlt : i < s.workers.length := (List.getElem?_eq_some.mp hw).1
          refine ⟨by simpa using hinv.length_eq, ?_, ?_, hinv.closed_wg, ?_⟩
          · refine winv_set hinv i _ rfl
              (fun j hj => deliveredFrom_snoc_ne s _ i j v rfl hj) (fun hd => hd) ?_
            intro w0 src hw0 hsrc hW
            rw [hw] at hw0
            cases hw0
            have hsp := hW.split (by rw [hpc]; simp)
            have hsp' : deliveredFrom s i ++ [v] ++ w.c.pending = src.pending := by
              simpa [held, hpc] using hsp
            have hd := deliveredFrom_snoc_self s
              { s with workers := s.workers.set i { w with pc := Pc.ranging },
                       out := s.out ++ [(i, v)] } i v rfl
            refine ⟨by rw [hd]; exact ⟨w.c.pending, hsp'⟩, fun _ => ?_, hW.closes_eq,
              fun hpe => by cases hpe⟩
            rw [hd]
            simpa [held] using hsp'
          · have := Aux.sum_map_set (fun w => live w.pc) s.workers i w
              { w with pc := Pc.ranging } hw
            have e1 : live w.pc = 1 := by rw [hpc]; rfl
            have e2 : live (Pc.ranging : Pc T) = 1 := rfl
            dsimp only at this
            rw [e1, e2] at this
            have hwg := hinv.wg_eq
            simp only
            omega
          · intro x hx
            simp only [List.mem_append, List.mem_singleton] at hx
            rcases hx with hx | rfl
            · exact hinv.tags x hx
            · have := hinv.length_eq
              simp only
              omega
  | closeOut =>
    simp only [step] at h
    split at h
    · cases h
      rename_i hc
      refine ⟨hinv.length_eq, ?_, hinv.wg_eq, fun _ => hc.1, hinv.tags⟩
      intro i w src hw hsrc
      have hW := hinv.worker i w src hw hsrc
      exact ⟨hW.prefixed, hW.split, hW.closes_eq, hW.exited_open⟩
    · cases h

theorem fanIn_inv_exec {T : Type} {channels : List (Source T)} (acts : List Action) :
    ∀ {s s' : State T}, Inv channels s → exec acts s = some s' → Inv channels s' := by
  induction acts with
  | nil => intro s s' hinv h; simp only [exec, Option.some.injEq] at h; subst h; exact hinv
  | cons a rest ih =>
    intro s s' hinv h
    simp only [exec] at h
    cases hst : step a s with
    | none => simp [hst] at h
    | some s1 =>
      simp only [hst] at h
      exact ih (fanIn_inv_step hinv a hst) h

end FanIn

namespace FanIn

theorem exitWorker_potential {T : Type} {s s' : State T} (i : Nat) (w : Worker T)
    (hw : s.workers[i]? = some w) (hne : w.pc ≠ Pc.exited)
    (h : exitWorker s i w = some s') : totalPotential s' + 1 ≤ totalPotential s := by
  unfold exitWorker at h
  split at h
  · cases h
  · cases h
    have := Aux.sum_map_set potential s.workers i w { w with pc := Pc.exited } hw
    have e0 : potential ({ w with pc := Pc.exited } : Worker T) = 0 := rfl
    have e1 : 1 ≤ potential w := by
      unfold potential
      cases hp : w.pc with
      | exited => exact absurd hp hne
      | ranging => simp
      | holding v => simp
    rw [e0] at this
    simp only [totalPotential]
    omega

theorem fanIn_potential_step {T : Type} {s s' : State T} (a : Action) (h : step a s = some s') :
    (a = Action.cancel → totalPotential s' = totalPotential s) ∧
      (a ≠ Action.cancel → totalPotential s' + 1 ≤ totalPotential s ∧ s'.done = s.done) := by
  cases a with
  | cancel =>
    simp only [step, Option.some.injEq] at h
    subst h
    exact ⟨fun _ => rfl, fun hne => absurd rfl hne⟩
  | recv i =>
    refine ⟨(fun hc => by cases hc), fun _ => ?_⟩
    simp only [step] at h
    cases hw : s.workers[i]? with
    | none => simp [hw] at h
    | some w =>
      simp only [hw] at h
      cases hpc : w.pc with
      | holding v => simp [hpc] at h
      | exited => simp [hpc] at h
      | ranging =>
        simp only [hpc] at h
        cases hp : w.c.pending with
        | cons v rest =>
          simp only [hp, Option.some.injEq] at h
          subst h
          have := Aux.sum_map_set potential s.workers i w
            ⟨⟨rest, w.c.closes⟩, Pc.holding v⟩ hw
          have e1 : potential w = 2 * rest.length + 3 := by
            simp only [potential, hpc, hp, List.length_cons]; omega
          have e2 : potential (⟨⟨rest, w.c.closes⟩, Pc.holding v⟩ : Worker T)
              = 2 * rest.length + 2 := rfl
          rw [e1, e2] at this
          refine ⟨?_, rfl⟩
          show (List.map potential (s.workers.set i ⟨⟨rest, w.c.closes⟩, Pc.holding v⟩)).sum
            + (if s.outClosed = true then 0 else 1) + 1 ≤
              (List.map potential s.workers).sum + (if s.outClosed = true then 0 else 1)
          omega
        | nil =>
          simp only [hp] at h
          split at h
          · refine ⟨exitWorker_potential i w hw (by rw [hpc]; simp) h, ?_⟩
            unfold exitWorker at h
            split at h
            · cases h
            · cases h; rfl
          · cases h
  | caseDone i =>
    refine ⟨(fun hc => by cases hc), fun _ => ?_⟩
    simp only [step] at h
    cases hw : s.workers[i]? with
    | none => simp [hw] at h
    | some w =>
      simp only [hw] at h
      cases hpc : w.pc with
      | ranging => simp [hpc] at h
      | exited => simp [hpc] at h
      | holding v =>
        simp only [hpc] at h
        split at h
        · refine ⟨exitWorker_potential i w hw (by rw [hpc]; simp) h, ?_⟩
          unfold exitWorker at h
          split at h
          · cases h
          · cases h; rfl
        · cases h
  | caseSend i =>
    refine ⟨(fun hc => by cases hc), fun _ => ?_⟩
    simp only [step] at h
    cases hw : s.workers[i]? with
    | none => simp [hw] at h
    | some w =>
      simp only [hw] at h
      cases hpc : w.pc with
      | ranging => simp [hpc] at h
      | exited => simp [hpc] at h
      | holding v =>
        simp only [hpc] at h
        split at h
        · cases h
        · cases h
          have := Aux.sum_map_set potential s.workers i w { w with pc := Pc.ranging } hw
          have e1 : potential w = 2 * w.c.pending.length + 2 := by
            simp only [potential, hpc]
          have e2 : potential ({ w with pc := Pc.ranging } : Worker T)
              = 2 * w.c.pending.length + 1 := rfl
          rw [e1, e2] at this
          refine ⟨?_, rfl⟩
          simp only [totalPotential]
          omega
  | closeOut =>
    refine ⟨(fun hc => by cases hc), fun _ => ?_⟩
    simp only [step] at h
    split at h
    · cases h
      rename_i hc
      refine ⟨?_, rfl⟩
      simp only [totalPotential, hc.2]
      simp
    · cases h

theorem fanIn_potential_exec {T : Type} (acts : List Action) :
    ∀ {s s' : State T}, exec acts s = some s' →
      countSteps acts + totalPotential s' ≤ totalPotential s := by
  induction acts with
  | nil => intro s s' h; simp only [exec, Option.some.injEq] at h; subst h; simp [countSteps]
  | cons a rest ih =>
    intro s s' h
    simp only [exec] at h
    cases hst : step a s with
    | none => simp [hst] at h
    | some s1 =>
      simp only [hst] at h
      have h1 := ih h
      have h2 := fanIn_potential_step a hst
      cases a with
      | cancel =>
        have := h2.1 rfl
        simp only [countSteps]
        omega
      | recv i => have := (h2.2 (by simp)).1; simp only [countSteps]; omega
      | caseDone i => have := (h2.2 (by simp)).1; simp only [countSteps]; omega
      | caseSend i => have := (h2.2 (by simp)).1; simp only [countSteps]; omega
      | closeOut => have := (h2.2 (by simp)).1; simp only [countSteps]; omega

theorem fanIn_potential_init {T : Type} (channels : List (Source T)) :
    totalPotential (fanIn channels) =
      2 * (channels.map fun c => c.pending.length).sum + channels.length + 1 := by
  have : ∀ l : List (Source T),
      ((l.map fun c => (⟨c, Pc.ranging⟩ : Worker T)).map potential).sum =
        2 * (l.map fun c => c.pending.length).sum + l.length := by
    intro l
    induction l with
    | nil => rfl
    | cons c t ih =>
      have e : potential (⟨c, Pc.ranging⟩ : Worker T) = 2 * c.pending.length + 1 := rfl
      simp only [List.map_cons, List.sum_cons, List.length_cons]
      rw [ih, e]
      omega
  simp only [totalPotential, fanIn, this]
  simp

/-- From every state the goroutines can be run until none of them can step. -/
theorem reach_terminal {T : Type} (k : Nat) :
    ∀ (s : State T), totalPotential s < k →
      ∃ acts s', exec acts s = some s' ∧ s'.done = s.done ∧
        ∀ a, a ≠ Action.cancel → step a s' = none := by
  induction k with
  | zero => intro s h; omega
  | succ k ih =>
    intro s hk
    by_cases hex : ∃ a, a ≠ Action.cancel ∧ ∃ s1, step a s = some s1
    · obtain ⟨a, ha, s1, hs1⟩ := hex
      have hp := (fanIn_potential_step a hs1).2 ha
      obtain ⟨acts, s', hrun, hd, hterm⟩ := ih s1 (by omega)
      exact ⟨a :: acts, s', by simp [exec, hs1, hrun], hd.trans hp.2, hterm⟩
    · refine ⟨[], s, rfl, rfl, ?_⟩
      intro a ha
      cases hst : step a s with
      | none => rfl
      | some s1 => exact absurd ⟨a, ha, s1, hst⟩ hex

end FanIn

namespace FanIn

theorem all_exited_of_wg {T : Type} {channels : List (Source T)} {s : State T}
    (hinv : Inv channels s) (hwg : s.wg = 0) :
    ∀ (i : Nat) (w : Worker T), s.workers[i]? = some w → w.pc = Pc.exited := by
  intro i w hw
  have hmem : w ∈ s.workers := List.mem_iff_getElem?.mpr ⟨i, hw⟩
  have h0 : live w.pc = 0 :=
    Aux.sum_eq_zero (fun w => live w.pc) s.workers (by rw [← hinv.wg_eq]; exact hwg) w hmem
  cases hp : w.pc with
  | exited => rfl
  | ranging => rw [hp] at h0; cases h0
  | holding v => rw [hp] at h0; cases h0

theorem wg_pos_of_live {T : Type} {channels : List (Source T)} {s : State T}
    (hinv : Inv channels s) (i : Nat) (w : Worker T) (hw : s.workers[i]? = some w)
    (hne : w.pc ≠ Pc.exited) : s.wg ≠ 0 := by
  intro hwg
  exact hne (all_exited_of_wg hinv hwg i w hw)

theorem closed_complete {T : Type} {channels : List (Source T)} {s : State T}
    (hinv : Inv channels s) (hd : s.done = false) (hc : s.outClosed = true) :
    ∀ i src, channels[i]? = some src → deliveredFrom s i = src.pending := by
  intro i src hsrc
  have hlt : i < s.workers.length := by
    rw [hinv.length_eq]; exact (List.getElem?_eq_some.mp hsrc).1
  have hw : s.workers[i]? = some s.workers[i] := List.getElem?_eq_getElem hlt
  have hp := all_exited_of_wg hinv (hinv.closed_wg hc) i _ hw
  exact (hinv.worker i _ src hw hsrc).exited_open hp hd

theorem terminal_closed {T : Type} {channels : List (Source T)} {s : State T}
    (hinv : Inv channels s) (hclose : ∀ src ∈ channels, src.closes = true)
    (hterm : ∀ a, a ≠ Action.cancel → step a s = none) :
    s.outClosed = true := by
  have hall : ∀ (i : Nat) (w : Worker T), s.workers[i]? = some w → w.pc = Pc.exited := by
    intro i w hw
    have hlt : i < channels.length := by
      rw [← hinv.length_eq]; exact (List.getElem?_eq_some.mp hw).1
    have hsrc : channels[i]? = some channels[i] := List.getElem?_eq_getElem hlt
    have hW := hinv.worker i w _ hw hsrc
    cases hpc : w.pc with
    | exited => rfl
    | ranging =>
      exfalso
      have hne : w.pc ≠ Pc.exited := by rw [hpc]; simp
      have h1 := hterm (Action.recv i) (by simp)
      simp only [step, hw, hpc] at h1
      cases hp : w.c.pending with
      | cons v rest => simp [hp] at h1
      | nil =>
        have hcl : w.c.closes = true := by
          rw [hW.closes_eq]; exact hclose _ (List.getElem_mem hlt)
        simp only [hp, hcl, if_true, exitWorker, wg_pos_of_live hinv i w hw hne,
          if_false] at h1
        cases h1
    | holding v =>
      exfalso
      have hne : w.pc ≠ Pc.exited := by rw [hpc]; simp
      have h1 := hterm (Action.caseSend i) (by simp)
      have hoc : s.outClosed = false := by
        cases hc : s.outClosed with
        | false => rfl
        | true => exact absurd (hinv.closed_wg hc) (wg_pos_of_live hinv i w hw hne)
      simp [step, hw, hpc, hoc] at h1
  have hwg : s.wg = 0 := by
    rw [hinv.wg_eq]
    have : ∀ l : List (Worker T), (∀ w ∈ l, w.pc = Pc.exited) →
        (l.map fun w => live w.pc).sum = 0 := by
      intro l hl
      induction l with
      | nil => rfl
      | cons x t ih =>
        have hx := hl x (List.mem_cons_self _ _)
        have e : live x.pc = 0 := by rw [hx]; rfl
        simp only [List.map_cons, List.sum_cons]
        rw [ih (fun w hw => hl w (List.mem_cons_of_mem _ hw)), e]
    apply this
    intro w hw
    obtain ⟨i, hi⟩ := List.mem_iff_getElem?.mp hw
    exact hall i w hi
  have h2 := hterm Action.closeOut (by simp)
  cases hc : s.outClosed with
  | true => rfl
  | false => simp [step, hwg, hc] at h2

theorem closed_perm {T : Type} {channels : List (Source T)} {s : State T}
    (hinv : Inv channels s) (hd : s.done = false) (hc : s.outClosed = true) :
    List.Perm (delivered s) (channels.map Source.pending).flatten := by
  have hperm := Aux.tagged_perm channels.length s.out hinv.tags
  have hblocks : ((List.range channels.length).map fun i =>
      (s.out.filter fun x => x.1 == i).map Prod.snd) = channels.map Source.pending := by
    apply List.ext_getElem?
    intro i
    by_cases hlt : i < channels.length
    · have hsrc : channels[i]? = some channels[i] := List.getElem?_eq_getElem hlt
      have := closed_complete hinv hd hc i _ hsrc
      simp only [deliveredFrom] at this
      simp [List.getElem?_map, List.getElem?_range hlt, hsrc, this]
    · have h1 : channels.length ≤ i := Nat.le_of_not_lt hlt
      rw [List.getElem?_eq_none (by simpa using h1), List.getElem?_eq_none (by simpa using h1)]
  rw [hblocks] at hperm
  exact hperm

theorem fanIn_closed_step {T : Type} {s s' : State T} (hc : s.outClosed = true) (a : Action)
    (h : step a s = some s') : s'.out = s.out := by
  cases a with
  | cancel => simp only [step, Option.some.injEq] at h; subst h; rfl
  | recv i =>
    simp only [step] at h
    cases hw : s.workers[i]? with
    | none => simp [hw] at h
    | some w =>
      simp only [hw] at h
      cases hpc : w.pc with
      | holding v => simp [hpc] at h
      | exited => simp [hpc] at h
      | ranging =>
        simp only [hpc] at h
        cases hp : w.c.pending with
        | cons v rest => simp only [hp, Option.some.injEq] at h; subst h; rfl
        | nil =>
          simp only [hp, exitWorker] at h
          split at h
          · split at h
            · cases h
            · cases h; rfl
          · cases h
  | caseDone i =>
    simp only [step] at h
    cases hw : s.workers[i]? with
    | none => simp [hw] at h
    | some w =>
      simp only [hw] at h
      cases hpc : w.pc with
      | ranging => simp [hpc] at h
      | exited => simp [hpc] at h
      | holding v =>
        simp only [hpc, exitWorker] at h
        split at h
        · split at h
          · cases h
          · cases h; rfl
        · cases h
  | caseSend i =>
    simp only [step] at h
    cases hw : s.workers[i]? with
    | none => simp [hw] at h
    | some w =>
      simp only [hw] at h
      cases hpc : w.pc with
      | ranging => simp [hpc] at h
      | exited => simp [hpc] at h
      | holding v => simp [hpc, hc] at h
  | closeOut => simp [step, hc] at h

/-- C1: for sources each closed after its last value and cancellation not
fired, under every schedule: the values delivered from each source are a
prefix of that source, in its order; once the output is closed every source
has been delivered in full, the delivered sequence is a permutation of all
source values, and nothing more is delivered; when no goroutine can step (the
consumer receiving every value offered) the output is closed; the goroutines
take at most `2 * (number of values) + N + 1` steps; and a run that ends with
the output closed exists. -/
theorem fanIn_interleaves {T : Type} (channels : List (Source T))
    (hclose : ∀ src ∈ channels, src.closes = true) (acts : List Action) (s : State T)
    (hrun : exec acts (fanIn channels) = some s) (hd : s.done = false) :
    (∀ i src, channels[i]? = some src → deliveredFrom s i <+: src.pending) ∧
    (s.outClosed = true →
      (∀ i src, channels[i]? = some src → deliveredFrom s i = src.pending) ∧
      List.Perm (delivered s) (channels.map Source.pending).flatten ∧
      ∀ a s', step a s = some s' → s'.out = s.out) ∧
    ((∀ a, a ≠ Action.cancel → step a s = none) → s.outClosed = true) ∧
    countSteps acts ≤ 2 * (channels.map fun c => c.pending.length).sum + channels.length + 1 ∧
    (∃ acts' s', exec acts' (fanIn channels) = some s' ∧ s'.done = false ∧
      s'.outClosed = true ∧
      List.Perm (delivered s') (channels.map Source.pending).flatten) := by
  have hinv := fanIn_inv_exec acts (fanIn_inv_init channels) hrun
  refine ⟨?_, ?_, ?_, ?_, ?_⟩
  · intro i src hsrc
    have hlt : i < s.workers.length := by
      rw [hinv.length_eq]; exact (List.getElem?_eq_some.mp hsrc).1
    exact (hinv.worker i _ src (List.getElem?_eq_getElem hlt) hsrc).prefixed
  · intro hc
    exact ⟨closed_complete hinv hd hc, closed_perm hinv hd hc, fun a s' h => fanIn_closed_step hc a h⟩
  · exact terminal_closed hinv hclose
  · have := fanIn_potential_exec acts hrun
    rw [fanIn_potential_init] at this
    omega
  · obtain ⟨acts', s', hrun', hd', hterm⟩ :=
      reach_terminal (totalPotential (fanIn channels) + 1) (fanIn channels) (by omega)
    have hinv' := fanIn_inv_exec acts' (fanIn_inv_init channels) hrun'
    have hd'' : s'.done = false := hd'
    have hc' := terminal_closed hinv' hclose hterm
    exact ⟨acts', s', hrun', hd'', hc', closed_perm hinv' hd'' hc'⟩

end FanIn

namespace FanIn

/-- Witness of `fanIn_interleaves`: the three sources of `main`, merged in the
order their producers send; exactly 8 values arrive, a permutation of
`[10, 20, 30, 100, 200, 300, 1000, 2000]`. -/
theorem fanIn_interleaves_witness :
    (delivered (⟨false,
        [⟨⟨[], true⟩, Pc.exited⟩, ⟨⟨[], true⟩, Pc.exited⟩, ⟨⟨[], true⟩, Pc.exited⟩], 0,
        [(0, 10), (1, 100), (2, 1000), (0, 20), (1, 200), (0, 30), (2, 2000), (1, 300)],
        true⟩ : State Nat)).length = 8 ∧
    (mainSources.map Source.pending).flatten = [10, 20, 30, 100, 200, 300, 1000, 2000] ∧
    List.Perm
      (delivered (⟨false,
        [⟨⟨[], true⟩, Pc.exited⟩, ⟨⟨[], true⟩, Pc.exited⟩, ⟨⟨[], true⟩, Pc.exited⟩], 0,
        [(0, 10), (1, 100), (2, 1000), (0, 20), (1, 200), (0, 30), (2, 2000), (1, 300)],
        true⟩ : State Nat))
      (mainSources.map Source.pending).flatten :=
  ⟨by decide, by decide,
    ((fanIn_interleaves mainSources (by decide)
      [Action.recv 0, Action.caseSend 0, Action.recv 1, Action.caseSend 1,
        Action.recv 2, Action.caseSend 2, Action.recv 0, Action.caseSend 0,
        Action.recv 1, Action.caseSend 1, Action.recv 0, Action.caseSend 0,
        Action.recv 2, Action.caseSend 2, Action.recv 1, Action.caseSend 1,
        Action.recv 0, Action.recv 1, Action.recv 2, Action.closeOut]
      ⟨false,
        [⟨⟨[], true⟩, Pc.exited⟩, ⟨⟨[], true⟩, Pc.exited⟩, ⟨⟨[], true⟩, Pc.exited⟩], 0,
        [(0, 10), (1, 100), (2, 1000), (0, 20), (1, 200), (0, 30), (2, 2000), (1, 300)],
        true⟩
      (by decide) (by decide)).2.1 (by decide)).2.1⟩

theorem blocked_step {s' : State Nat} (d : Bool) (a : Action)
    (h : step a (⟨d, [⟨⟨[], false⟩, Pc.ranging⟩], 1, [], false⟩ : State Nat) = some s') :
    s' = ⟨true, [⟨⟨[], false⟩, Pc.ranging⟩], 1, [], false⟩ := by
  cases a with
  | cancel => simp only [step, Option.some.injEq] at h; exact h.symm
  | recv i =>
    cases i with
    | zero => simp [step] at h
    | succ i => simp [step] at h
  | caseDone i =>
    cases i with
    | zero => simp [step] at h
    | succ i => simp [step] at h
  | caseSend i =>
    cases i with
    | zero => simp [step] at h
    | succ i => simp [step] at h
  | closeOut => simp [step] at h

theorem blocked_exec (acts : List Action) :
    ∀ (d : Bool) (s' : State Nat),
      exec acts (⟨d, [⟨⟨[], false⟩, Pc.ranging⟩], 1, [], false⟩ : State Nat) = some s' →
      s'.workers = [⟨⟨[], false⟩, Pc.ranging⟩] ∧ s'.outClosed = false := by
  induction acts with
  | nil =>
    intro d s' h
    simp only [exec, Option.some.injEq] at h
    subst h
    exact ⟨rfl, rfl⟩
  | cons a rest ih =>
    intro d s' h
    simp only [exec] at h
    cases hst : step a (⟨d, [⟨⟨[], false⟩, Pc.ranging⟩], 1, [], false⟩ : State Nat) with
    | none => simp [hst] at h
    | some s1 =>
      simp only [hst] at h
      have := blocked_step d a hst
      subst this
      exact ih true s' h

/-- C5 fails on the code: with one source that is open, has no value and is
never closed, the worker blocks in `for n := range c`, which does not watch
`done`. After cancellation has fired, no schedule lets the worker return or
the output be closed. -/
theorem fanIn_blocked_reader_not_cancelled :
    exec [Action.cancel] (fanIn [(⟨[], false⟩ : Source Nat)]) =
      some ⟨true, [⟨⟨[], false⟩, Pc.ranging⟩], 1, [], false⟩ ∧
    (¬ ∃ a s', a ≠ Action.cancel ∧
      step a (⟨true, [⟨⟨[], false⟩, Pc.ranging⟩], 1, [], false⟩ : State Nat) = some s') ∧
    (¬ ∃ acts s',
      exec acts (⟨true, [⟨⟨[], false⟩, Pc.ranging⟩], 1, [], false⟩ : State Nat) = some s' ∧
        (s'.outClosed = true ∨ s'.workers ≠ [⟨⟨[], false⟩, Pc.ranging⟩])) := by
  refine ⟨by decide, ?_, ?_⟩
  · rintro ⟨a, s', ha, h⟩
    cases a with
    | cancel => exact ha rfl
    | recv i => cases i <;> simp [step] at h
    | caseDone i => cases i <;> simp [step] at h
    | caseSend i => cases i <;> simp [step] at h
    | closeOut => simp [step] at h
  · rintro ⟨acts, s', h, hbad⟩
    obtain ⟨h1, h2⟩ := blocked_exec acts true s' h
    rcases hbad with hb | hb
    · rw [h2] at hb; cases hb
    · exact hb h1

end FanIn

